import Mathlib

/-!
Verification of the Roster Reconciliation & Ranking Engine of the
draft-waiver assistant (src/app.py) against its specification.

The Python source is shallowly embedded: pandas Series/column operations
become pointwise operations on Lean lists of rationals (pandas floats are
modelled as rationals: every arithmetic operation the engine performs is
exact on the decimal inputs involved), nullable cells become Option values,
and the dynamic dictionary/JSON manipulation of the roster fetcher becomes
an explicit PyVal tree together with an Except monad modelling the Python
exceptions (AttributeError / TypeError) that dynamic attribute access and
iteration can raise.
-/

namespace DraftWaiver

/-! ## Candidates and the scoring pipeline (src/app.py lines 195-252)

A row of the filtered pool df_avail, restricted to the fields the scoring
code reads.  Metric cells are Option ℚ: None models a NaN cell (no FPL
merge match, unmapped club, or a non-numeric cell that
pd.to_numeric(errors="coerce") turns into NaN). -/
structure Candidate where
  ppg : Option ℚ
  ict : Option ℚ
  fixtureEase : Option ℚ
  form : Option ℚ
  returning : Bool
  deriving DecidableEq, Inhabited

/-- Weights from the four sliders (lines 165-168). -/
structure Weights where
  w_ppg : ℚ
  w_ict : ℚ
  w_fix : ℚ
  w_form : ℚ
  deriving DecidableEq

/-- Models pd.to_numeric(s, errors="coerce").fillna(0) applied to one cell
(line 28): a null / non-numeric cell becomes NaN under coerce and then 0
under fillna; a numeric cell passes through. -/
def coerceNum (v : Option ℚ) : ℚ := v.getD 0

/-- s.max() of a pandas numeric Series with no NaN (line 29); the empty
case is irrelevant downstream (both branches of minmax yield []). -/
def listMax : List ℚ → ℚ
  | [] => 0
  | x :: xs => xs.foldl max x

/-- s.min() of a pandas numeric Series with no NaN (line 29). -/
def listMin : List ℚ → ℚ
  | [] => 0
  | x :: xs => xs.foldl min x

/-- minmax (lines 27-31): after the to_numeric/fillna coercion (applied by
the caller via coerceNum), if max = min return the all-zero series, else
normalize pointwise. -/
def minmax (l : List ℚ) : List ℚ :=
  if listMax l = listMin l then l.map fun _ => 0
  else l.map fun x => (x - listMin l) / (listMax l - listMin l)

/-- Element of a list of rationals at an index, with pandas alignment
semantics (rows are aligned positionally; out of range never occurs for
aligned columns). -/
def nthQ (l : List ℚ) (i : ℕ) : ℚ := l.getD i 0

/-- The Score column (lines 237-247): each of the four metric columns is
coerced and min-max normalized across the pool, then combined by the
weighted sum plus the 0.05 returning-from-injury bonus.
FixtureEase.fillna(0) (line 239) is subsumed by coerceNum, which is also
what minmax itself applies (line 28). -/
def scoreList (pool : List Candidate) (w : Weights) : List ℚ :=
  (List.range pool.length).map fun i =>
    w.w_ppg * nthQ (minmax (pool.map fun c => coerceNum c.ppg)) i +
    w.w_ict * nthQ (minmax (pool.map fun c => coerceNum c.ict)) i +
    w.w_fix * nthQ (minmax (pool.map fun c => coerceNum c.fixtureEase)) i +
    w.w_form * nthQ (minmax (pool.map fun c => coerceNum c.form)) i +
    (0.05 : ℚ) * (if (pool.getD i default).returning then 1 else 0)

/-- Available_nextGW (lines 203-206): status.isin(["a","d"]) AND
chance_of_playing_next_round.fillna(100) >= 75.  The status cell is
Option String (None models the NaN of an unmatched left-join row, for
which isin is False). -/
def available_nextGW (status : Option String) (chance : Option ℚ) : Bool :=
  (status = some "a" || status = some "d") && (75 ≤ chance.getD 100)

/-- Selector for the four scoring metrics, in the order they appear in the
Score sum (lines 237-240): ppg, ict, fixture ease, form. -/
def metricOf : Fin 4 → Candidate → Option ℚ
  | ⟨0, _⟩, c => c.ppg
  | ⟨1, _⟩, c => c.ict
  | ⟨2, _⟩, c => c.fixtureEase
  | ⟨3, _⟩, c => c.form

/-- Selector for the four weights, aligned with metricOf. -/
def weightOf : Fin 4 → Weights → ℚ
  | ⟨0, _⟩, w => w.w_ppg
  | ⟨1, _⟩, w => w.w_ict
  | ⟨2, _⟩, w => w.w_fix
  | ⟨3, _⟩, w => w.w_form

/-- The minmax-normalized column of one metric across the pool. -/
def metricCol (pool : List Candidate) (m : Fin 4) : List ℚ :=
  minmax (pool.map fun c => coerceNum (metricOf m c))

/-! ## Name normalization (src/app.py lines 22-25)

normalize_name pipeline: NFKD-decompose, encode ascii/ignore, lower,
replace every run of non-letters by one space, collapse whitespace runs,
strip.  Characters are Lean Chars; the NFKD + ascii/ignore step is
modelled as a filter keeping the ASCII range: NFKD is the identity on
ASCII text and encode("ascii","ignore") keeps exactly the ASCII
characters.  (A non-ASCII character whose compatibility decomposition
contains ASCII letters is simply dropped by this model; every
intermediate string in the theorems below is pure ASCII, where the model
is exact.) -/

/-- The character class [a-z] of the regex at line 24. -/
def isLowerAlpha (c : Char) : Bool := 'a' ≤ c && c ≤ 'z'

/-- The regex class \s (and the default str.strip set) on the ASCII
range: space, tab, newline, vertical tab, form feed, carriage return. -/
def isSpaceCh (c : Char) : Bool :=
  c = ' ' || c = '\t' || c = '\n' || c = '\x0b' || c = '\x0c' || c = '\r'

/-- NFKD + encode("ascii","ignore") + decode (line 23), see the section
comment: keep the ASCII characters. -/
def asciiIgnore (l : List Char) : List Char := l.filter fun c => c.toNat < 128

/-- str.lower() (line 23); on the ASCII output of asciiIgnore this is
exactly Char.toLower. -/
def lowerChars (l : List Char) : List Char := l.map Char.toLower

mutual
/-- re.sub(r"[^a-z]+", " ", s) (line 24): letters pass through; a maximal
run of non-letters becomes a single space. -/
def subNonAlpha : List Char → List Char
  | [] => []
  | c :: cs => if isLowerAlpha c then c :: subNonAlpha cs else ' ' :: skipNonAlpha cs
/-- Tail state of subNonAlpha after the single replacement space was
emitted: skip the rest of the non-letter run. -/
def skipNonAlpha : List Char → List Char
  | [] => []
  | c :: cs => if isLowerAlpha c then c :: subNonAlpha cs else skipNonAlpha cs
end

mutual
/-- re.sub(r"\s+", " ", s) (line 25): a maximal whitespace run becomes a
single space. -/
def subSpaces : List Char → List Char
  | [] => []
  | c :: cs => if isSpaceCh c then ' ' :: skipSpaces cs else c :: subSpaces cs
/-- Tail state of subSpaces inside a whitespace run. -/
def skipSpaces : List Char → List Char
  | [] => []
  | c :: cs => if isSpaceCh c then skipSpaces cs else c :: subSpaces cs
end

/-- Removes a trailing whitespace run (the right half of str.strip). -/
def dropTrailingSpaces : List Char → List Char
  | [] => []
  | c :: cs =>
    match dropTrailingSpaces cs with
    | [] => if isSpaceCh c then [] else [c]
    | ds => c :: ds

/-- str.strip() (line 25): drop leading and trailing whitespace. -/
def pyStripChars (l : List Char) : List Char :=
  dropTrailingSpaces (l.dropWhile isSpaceCh)

/-- normalize_name (lines 22-25).  (The str(s) coercion is applied by
callers that pass a non-string, see pyStr below.) -/
def normalize_name (s : String) : String :=
  String.mk (pyStripChars (subSpaces (subNonAlpha (lowerChars (asciiIgnore s.toList)))))

mutual
/-- Letters-and-isolated-spaces invariant satisfied by subNonAlpha
output: only lowercase letters and spaces, never two adjacent spaces;
ndsTail is the state at the start or after a letter. -/
def ndsTail : List Char → Bool
  | [] => true
  | c :: cs => if isLowerAlpha c then ndsTail cs else c = ' ' && ndsSpace cs
/-- State right after a space: the run must not continue with a space. -/
def ndsSpace : List Char → Bool
  | [] => true
  | c :: cs => isLowerAlpha c && ndsTail cs
end

mutual
/-- Canonical shape of normalize_name output after at least one letter:
letters, single interior spaces, no trailing space. -/
def canonTail : List Char → Bool
  | [] => true
  | c :: cs => if isLowerAlpha c then canonTail cs else c = ' ' && canonSpace cs
/-- State right after an interior space: a letter must follow. -/
def canonSpace : List Char → Bool
  | [] => false
  | c :: cs => isLowerAlpha c && canonTail cs
end

/-- Canonical shape of normalize_name output: empty, or letter-initial
and canonical throughout. -/
def canon : List Char → Bool
  | [] => true
  | c :: cs => isLowerAlpha c && canonTail cs

/-! ## The roster payload and its extraction (src/app.py lines 33-72)

PyVal models the values r.json() can hand to the extraction code: None,
booleans, integers, strings, lists, and string-keyed dicts.  (JSON
fractional numbers do не occur in any field the extractor reads and are
not modelled.)  PyErr models the exceptions the extraction itself can
raise on a parsed tree: AttributeError from calling .get on a non-dict
value, TypeError from iterating a non-iterable value. -/
inductive PyVal where
  | none : PyVal
  | bool : Bool → PyVal
  | num : Int → PyVal
  | str : String → PyVal
  | list : List PyVal → PyVal
  | dict : List (String × PyVal) → PyVal

inductive PyErr where
  | attributeError : PyErr
  | typeError : PyErr
  deriving DecidableEq

/-- Lookup in a parsed JSON object; json.loads keeps the last value of a
duplicated key, hence the reverse. -/
def dictLookup (m : List (String × PyVal)) (k : String) : Option PyVal :=
  (m.reverse.find? fun e => e.1 == k).map (fun e => e.2)

/-- v.get(k): AttributeError unless v is a dict; an absent key yields
None. -/
def pyGet (v : PyVal) (k : String) : Except PyErr PyVal :=
  match v with
  | .dict m => .ok ((dictLookup m k).getD .none)
  | _ => .error .attributeError

/-- v.get(k, d): an absent key yields the default d (a present key with
value None yields None). -/
def pyGetD (v : PyVal) (k : String) (d : PyVal) : Except PyErr PyVal :=
  match v with
  | .dict m => .ok ((dictLookup m k).getD d)
  | _ => .error .attributeError

/-- Python truthiness of the modelled values. -/
def truthy : PyVal → Bool
  | .none => false
  | .bool b => b
  | .num n => n ≠ 0
  | .str s => s ≠ ""
  | .list l => !l.isEmpty
  | .dict m => !m.isEmpty

/-- Python "x or y" on an already-evaluated left operand: the right
operand is only reached when the left is falsy (short-circuit); the
value is the first truthy operand, else the right operand's value. -/
def pyOr (x : Except PyErr PyVal) (y : Except PyErr PyVal) : Except PyErr PyVal :=
  match x with
  | .error e => .error e
  | .ok v => if truthy v then .ok v else y

/-- for x in v: lists yield their elements, dicts their keys, strings
their characters (as one-character strings); anything else raises
TypeError. -/
def pyIter : PyVal → Except PyErr (List PyVal)
  | .list l => .ok l
  | .dict m => .ok (m.map fun e => .str e.1)
  | .str s => .ok (s.toList.map fun c => .str (String.mk [c]))
  | _ => .error .typeError

mutual
/-- repr(v), as used by str() on nested containers (string-escape
subtleties inside repr are irrelevant to every claim and elided). -/
def pyRepr : PyVal → String
  | .none => "None"
  | .bool b => if b then "True" else "False"
  | .num n => toString n
  | .str s => "\x27" ++ s ++ "\x27"
  | .list l => "[" ++ pyReprList l ++ "]"
  | .dict m => "\x7b" ++ pyReprDict m ++ "\x7d"

def pyReprList : List PyVal → String
  | [] => ""
  | [v] => pyRepr v
  | v :: vs => pyRepr v ++ ", " ++ pyReprList vs

def pyReprDict : List (String × PyVal) → String
  | [] => ""
  | [e] => "\x27" ++ e.1 ++ "\x27: " ++ pyRepr e.2
  | e :: es => "\x27" ++ e.1 ++ "\x27: " ++ pyRepr e.2 ++ ", " ++ pyReprDict es
end

/-- str(v) (line 56, and the str(s) at line 23 when normalize_name is
fed a non-string). -/
def pyStr : PyVal → String
  | .none => "None"
  | .bool b => if b then "True" else "False"
  | .num n => toString n
  | .str s => s
  | .list l => "[" ++ pyReprList l ++ "]"
  | .dict m => "\x7b" ++ pyReprDict m ++ "\x7d"

/-- RosterEntry (spec 4.2): one (teamId, teamName, playerName) triple of
the extraction walk.  teamName and playerName are kept as the raw PyVals
the code stores. -/
structure RosterEntry where
  tid : String
  tname : PyVal
  pname : PyVal

/-- The accumulator of the fetch_live_league loop (lines 50-53). -/
structure LeagueState where
  owner_by_name : List (String × PyVal)
  players_by_team : List (String × List PyVal)
  teams_index : List (String × PyVal)
  total_names : ℕ

def initState : LeagueState := LeagueState.mk [] [] [] 0

/-- Python dict assignment d[k] = v: overwrite in place when the key
exists, else append. -/
def dset {α : Type} (m : List (String × α)) (k : String) (v : α) : List (String × α) :=
  match m with
  | [] => [(k, v)]
  | e :: es => if e.1 = k then (k, v) :: es else e :: dset es k v

/-- Python dict lookup d.get(k) on a dict built through dset (keys are
unique, so the first match is the value of the last assignment). -/
def dget {α : Type} (m : List (String × α)) (k : String) : Option α :=
  (m.find? fun e => e.1 == k).map (fun e => e.2)

/-- extract_player_name (lines 33-41): the or-chain over the candidate
access paths; its value is the first truthy result (or the last,
falsy, operand). -/
def pyNestedGet (p : PyVal) (f k : String) : Except PyErr PyVal :=
  match pyGet p f with
  | .error e => .error e
  | .ok v => pyGet (if truthy v then v else .dict []) k

def extract_player_name (p : PyVal) : Except PyErr PyVal :=
  pyOr (pyGet p "name")
    (pyOr (pyNestedGet p "player" "name")
      (pyOr (pyGet p "playerName")
        (pyOr (pyNestedGet p "data" "name")
          (pyOr (pyNestedGet p "ws" "name")
            (pyNestedGet p "info" "name")))))

/-- tname = t.get("name") or t.get("teamName") or "-" (line 55). -/
def teamNameOf (t : PyVal) : Except PyErr PyVal :=
  pyOr (pyGet t "name") (pyOr (pyGet t "teamName") (.ok (.str "-")))

/-- tid = str(t.get("id") or t.get("teamId") or "").strip() (line 56). -/
def teamIdOf (t : PyVal) : Except PyErr String :=
  match pyOr (pyGet t "id") (pyOr (pyGet t "teamId") (.ok (.str ""))) with
  | .error e => .error e
  | .ok v => .ok (String.mk (pyStripChars (pyStr v).toList))

/-- roster = t.get("teamPlayers") or t.get("players") or t.get("squad")
or t.get("roster") or [] (lines 57-63). -/
def rosterOfTeam (t : PyVal) : Except PyErr PyVal :=
  pyOr (pyGet t "teamPlayers")
    (pyOr (pyGet t "players")
      (pyOr (pyGet t "squad")
        (pyOr (pyGet t "roster") (.ok (.list [])))))

/-- One iteration of the roster loop (lines 66-71): resolve the name; if
truthy, count it, write owner_by_name[normalize_name(str(pname))] :=
tname and append pname to players_by_team[tid] (that key exists, set at
line 65; the getD [] default is never taken). -/
def procPlayer (tid : String) (tname : PyVal) (st : LeagueState) (p : PyVal) :
    Except PyErr LeagueState :=
  match extract_player_name p with
  | .error e => .error e
  | .ok pname =>
    if truthy pname then
      .ok (LeagueState.mk
        (dset st.owner_by_name (normalize_name (pyStr pname)) tname)
        (dset st.players_by_team tid
          (((dget st.players_by_team tid).getD []) ++ [pname]))
        st.teams_index
        (st.total_names + 1))
    else .ok st

def procRoster (tid : String) (tname : PyVal) :
    LeagueState → List PyVal → Except PyErr LeagueState
  | st, [] => .ok st
  | st, p :: ps =>
    match procPlayer tid tname st p with
    | .error e => .error e
    | .ok st2 => procRoster tid tname st2 ps

/-- One iteration of the team loop (lines 54-71): resolve name, id and
roster, append to teams_index and reset players_by_team[tid] (lines
64-65), then run the roster loop (the for statement iterates the roster
value, raising TypeError if it is not iterable). -/
def procTeam (st : LeagueState) (t : PyVal) : Except PyErr LeagueState :=
  match teamNameOf t with
  | .error e => .error e
  | .ok tname =>
    match teamIdOf t with
    | .error e => .error e
    | .ok tid =>
      match rosterOfTeam t with
      | .error e => .error e
      | .ok rosterV =>
        match pyIter rosterV with
        | .error e => .error e
        | .ok items =>
          procRoster tid tname
            (LeagueState.mk st.owner_by_name
              (dset st.players_by_team tid [])
              (st.teams_index ++ [(tid, tname)])
              st.total_names)
            items

def procTeams : LeagueState → List PyVal → Except PyErr LeagueState
  | st, [] => .ok st
  | st, t :: ts =>
    match procTeam st t with
    | .error e => .error e
    | .ok st2 => procTeams st2 ts

/-- fetch_live_league (lines 43-72) from the parsed payload onward:
league = data.get("league", data); teams = league.get("teams", []); the
for statement iterates teams; then the team loop. -/
def fetch_live_league (data : PyVal) : Except PyErr LeagueState :=
  match pyGetD data "league" data with
  | .error e => .error e
  | .ok league =>
    match pyGetD league "teams" (.list []) with
    | .error e => .error e
    | .ok teamsV =>
      match pyIter teamsV with
      | .error e => .error e
      | .ok teams => procTeams initState teams

/-- The RosterEntry list produced by the same walk (the spec 4.2
contract extract(payload) -> list of RosterEntry): one entry per roster
item whose name resolves to a truthy value; items with no resolvable
name are skipped silently. -/
def entriesOfRoster (tid : String) (tname : PyVal) :
    List PyVal → Except PyErr (List RosterEntry)
  | [] => .ok []
  | p :: ps =>
    match extract_player_name p with
    | .error e => .error e
    | .ok pname =>
      match entriesOfRoster tid tname ps with
      | .error e => .error e
      | .ok es => .ok (if truthy pname then RosterEntry.mk tid tname pname :: es else es)

def entriesOfTeam (t : PyVal) : Except PyErr (List RosterEntry) :=
  match teamNameOf t with
  | .error e => .error e
  | .ok tname =>
    match teamIdOf t with
    | .error e => .error e
    | .ok tid =>
      match rosterOfTeam t with
      | .error e => .error e
      | .ok rosterV =>
        match pyIter rosterV with
        | .error e => .error e
        | .ok items => entriesOfRoster tid tname items

def entriesOfTeams : List PyVal → Except PyErr (List RosterEntry)
  | [] => .ok []
  | t :: ts =>
    match entriesOfTeam t with
    | .error e => .error e
    | .ok es =>
      match entriesOfTeams ts with
      | .error e => .error e
      | .ok es2 => .ok (es ++ es2)

def extractEntries (data : PyVal) : Except PyErr (List RosterEntry) :=
  match pyGetD data "league" data with
  | .error e => .error e
  | .ok league =>
    match pyGetD league "teams" (.list []) with
    | .error e => .error e
    | .ok teamsV =>
      match pyIter teamsV with
      | .error e => .error e
      | .ok teams => entriesOfTeams teams

/-- Shape of a roster item under which extract_player_name cannot raise:
the item is a dict whose player/data/ws/info fields are each absent,
falsy, or a dict. -/
def itemOk (p : PyVal) : Bool :=
  match p with
  | .dict m =>
    ["player", "data", "ws", "info"].all fun f =>
      match (dictLookup m f).getD .none with
      | .dict _ => true
      | v => !truthy v
  | _ => false

/-- Shape of a team node under which the team loop body cannot raise:
a dict whose resolved roster value is iterable with well-shaped items. -/
def teamOk (t : PyVal) : Bool :=
  match t with
  | .dict _ =>
    match rosterOfTeam t with
    | .error _ => false
    | .ok rv =>
      match pyIter rv with
      | .error _ => false
      | .ok items => items.all itemOk
  | _ => false

/-- Shape of a payload under which extraction cannot raise: the league
unwrap and teams lookup reach mappings, the teams value is iterable, and
every team is well-shaped. -/
def payloadOk (data : PyVal) : Bool :=
  match pyGetD data "league" data with
  | .error _ => false
  | .ok league =>
    match pyGetD league "teams" (.list []) with
    | .error _ => false
    | .ok teamsV =>
      match pyIter teamsV with
      | .error _ => false
      | .ok teams => teams.all teamOk

/-- The teams sequence the loop iterates, as a pure projection (empty
when the unwraps fail; used only under payloadOk). -/
def topTeams (data : PyVal) : List PyVal :=
  match pyGetD data "league" data with
  | .error _ => []
  | .ok league =>
    match pyGetD league "teams" (.list []) with
    | .error _ => []
    | .ok teamsV =>
      match pyIter teamsV with
      | .error _ => []
      | .ok teams => teams

/-- rosterOf (lines 219-226): players_by_team.get(str(team_id).strip()),
with the missing-key None flowing to [] through the "my_names or []" at
line 226. -/
def rosterOf (st : LeagueState) (teamId : String) : List PyVal :=
  (dget st.players_by_team (String.mk (pyStripChars teamId.toList))).getD []

/-- The Owner cell (line 210): owner_by_name looked up at an already
normalized name, .fillna("-"). -/
def ownerOf (st : LeagueState) (nameNorm : String) : PyVal :=
  (dget st.owner_by_name nameNorm).getD (.str "-")

/-- owner_by_name as a fold of dict assignments over the entry list
(lines 66-70 write one assignment per truthy-named roster item). -/
def ownerFold (es : List RosterEntry) (o : List (String × PyVal)) :
    List (String × PyVal) :=
  es.foldl (fun acc e => dset acc (normalize_name (pyStr e.pname)) e.tname) o

/-- The id of a team node as a pure projection (only used on teams where
teamIdOf succeeds). -/
def teamIdPure (t : PyVal) : String :=
  match teamIdOf t with
  | .ok s => s
  | .error _ => ""

/-- The extracted player names of one team node as a pure projection. -/
def teamEntryNames (t : PyVal) : List PyVal :=
  match entriesOfTeam t with
  | .ok es => es.map (fun e => e.pname)
  | .error _ => []

/-- The bucket players_by_team ends up holding for key k: the names of
the last team whose id is k (each team resets its bucket at line 65), if
any such team exists. -/
def lastBucket (teams : List PyVal) (k : String) : Option (List PyVal) :=
  teams.foldl (fun acc t => if teamIdPure t = k then some (teamEntryNames t) else acc) none

/-- Roster item carrying the display name nested under player.name. -/
def itemNested (x : String) : PyVal := .dict [("player", .dict [("name", .str x)])]

/-- Roster item carrying a flat name field. -/
def itemFlat (x : String) : PyVal := .dict [("name", .str x)]

/-- A team node with given id, name and roster items. -/
def mkTeam (tid tname : String) (items : List PyVal) : PyVal :=
  .dict [("id", .str tid), ("name", .str tname), ("players", .list items)]

/-- A roster payload with the given team nodes. -/
def mkPayload (teams : List PyVal) : PyVal := .dict [("teams", .list teams)]

/-- A payload whose player items all nest the name under player.name;
each team is described by (id, name, list of player names). -/
def mkLeagueNested (ds : List (String × String × List String)) : PyVal :=
  mkPayload (ds.map fun d => mkTeam d.1 d.2.1 (d.2.2.map itemNested))

/-- The equivalent payload with flat name fields. -/
def mkLeagueFlat (ds : List (String × String × List String)) : PyVal :=
  mkPayload (ds.map fun d => mkTeam d.1 d.2.1 (d.2.2.map itemFlat))

/-! ## df_top: sort_values descending + head(25) (src/app.py line 252)

df_avail.sort_values("Score", ascending=False) is modelled after
pandas' nargsort: rows are argsorted ascending on the Score column and
the indexer is then reversed wholesale.  A stable ascending argsort is
exactly a sort by the lexicographic key (score, original position);
pandas' default quicksort kind is not stable in general, but numpy's
introsort is stable below its insertion-sort cutoff (so on the small
frames exercised here) and the mergesort/"stable" kinds always are;
the model fixes that stable behavior.  A row is represented as
(original position, Score). -/
def rowLe (a b : ℕ × ℚ) : Prop :=
  a.2 < b.2 ∨ (a.2 = b.2 ∧ a.1 ≤ b.1)

instance rowLe.decRel : DecidableRel rowLe := fun a b =>
  inferInstanceAs (Decidable (a.2 < b.2 ∨ (a.2 = b.2 ∧ a.1 ≤ b.1)))

instance rowLe.total : IsTotal (ℕ × ℚ) rowLe :=
  ⟨by
    intro a b
    rcases lt_trichotomy a.2 b.2 with h | h | h
    · exact Or.inl (Or.inl h)
    · rcases Nat.le_total a.1 b.1 with hn | hn
      · exact Or.inl (Or.inr ⟨h, hn⟩)
      · exact Or.inr (Or.inr ⟨h.symm, hn⟩)
    · exact Or.inr (Or.inl h)⟩

instance rowLe.trans : IsTrans (ℕ × ℚ) rowLe :=
  ⟨by
    intro a b c hab hbc
    rcases hab with h1 | ⟨he1, hn1⟩
    · rcases hbc with h2 | ⟨he2, hn2⟩
      · exact Or.inl (lt_trans h1 h2)
      · exact Or.inl (he2 ▸ h1)
    · rcases hbc with h2 | ⟨he2, hn2⟩
      · exact Or.inl (he1 ▸ h2)
      · exact Or.inr ⟨he1.trans he2, le_trans hn1 hn2⟩⟩

/-- The row order sort_values(ascending=False) produces: stable
ascending argsort, then reversal (pandas nargsort). -/
def sortValuesDesc (rows : List (ℕ × ℚ)) : List (ℕ × ℚ) :=
  (List.insertionSort rowLe rows).reverse

/-- df_top (line 252): the pool's score rows sorted descending, first
25 kept. -/
def df_top (pool : List Candidate) (w : Weights) : List (ℕ × ℚ) :=
  (sortValuesDesc (scoreList pool w).enum).take 25

/-! ### Basic lemmas about listMax / listMin / minmax -/

theorem foldl_max_le_iff {b x : ℚ} : ∀ {l : List ℚ},
    l.foldl max x ≤ b ↔ x ≤ b ∧ ∀ y ∈ l, y ≤ b := by
  intro l
  induction l generalizing x with
  | nil => simp
  | cons z zs ih =>
    simp only [List.foldl_cons, ih, max_le_iff, List.mem_cons]
    constructor
    · rintro ⟨⟨h1, h2⟩, h3⟩
      exact ⟨h1, fun y hy => hy.elim (fun e => e ▸ h2) (h3 y)⟩
    · rintro ⟨h1, h2⟩
      exact ⟨⟨h1, h2 z (Or.inl rfl)⟩, fun y hy => h2 y (Or.inr hy)⟩

theorem le_foldl_min_iff {b x : ℚ} : ∀ {l : List ℚ},
    b ≤ l.foldl min x ↔ b ≤ x ∧ ∀ y ∈ l, b ≤ y := by
  intro l
  induction l generalizing x with
  | nil => simp
  | cons z zs ih =>
    simp only [List.foldl_cons, ih, le_min_iff, List.mem_cons]
    constructor
    · rintro ⟨⟨h1, h2⟩, h3⟩
      exact ⟨h1, fun y hy => hy.elim (fun e => e ▸ h2) (h3 y)⟩
    · rintro ⟨h1, h2⟩
      exact ⟨⟨h1, h2 z (Or.inl rfl)⟩, fun y hy => h2 y (Or.inr hy)⟩

theorem le_listMax {l : List ℚ} {x : ℚ} (hx : x ∈ l) : x ≤ listMax l := by
  cases l with
  | nil => cases hx
  | cons a as =>
    have h : as.foldl max a ≤ as.foldl max a := le_rfl
    rw [foldl_max_le_iff] at h
    rcases List.mem_cons.mp hx with rfl | hmem
    · exact h.1
    · exact h.2 x hmem

theorem listMin_le {l : List ℚ} {x : ℚ} (hx : x ∈ l) : listMin l ≤ x := by
  cases l with
  | nil => cases hx
  | cons a as =>
    have h : as.foldl min a ≤ as.foldl min a := le_rfl
    rw [le_foldl_min_iff] at h
    rcases List.mem_cons.mp hx with rfl | hmem
    · exact h.1
    · exact h.2 x hmem

theorem le_listMin {l : List ℚ} {b : ℚ} (hne : l ≠ []) (h : ∀ y ∈ l, b ≤ y) :
    b ≤ listMin l := by
  cases l with
  | nil => exact absurd rfl hne
  | cons a as =>
    rw [listMin, le_foldl_min_iff]
    exact ⟨h a (List.mem_cons_self a as), fun y hy => h y (List.mem_cons_of_mem a hy)⟩

theorem length_minmax (l : List ℚ) : (minmax l).length = l.length := by
  unfold minmax
  split <;> simp

theorem nthQ_map {α : Type} (f : α → ℚ) (l : List α) (i : ℕ) (d : α) (h : i < l.length) :
    nthQ (l.map f) i = f (l.getD i d) := by
  unfold nthQ
  rw [List.getD_eq_getElem _ _ (by simpa using h), List.getD_eq_getElem _ _ h]
  simp

theorem nthQ_minmax (l : List ℚ) (i : ℕ) (h : i < l.length) :
    nthQ (minmax l) i =
      if listMax l = listMin l then 0
      else (nthQ l i - listMin l) / (listMax l - listMin l) := by
  unfold minmax
  split
  · rw [nthQ_map _ _ _ 0 h]
  · rw [nthQ_map _ _ _ 0 h]
    rfl

theorem getD_mem {α : Type} (l : List α) (i : ℕ) (d : α) (h : i < l.length) :
    l.getD i d ∈ l := by
  rw [List.getD_eq_getElem _ _ h]
  exact List.getElem_mem h

theorem nthQ_scoreList (pool : List Candidate) (w : Weights) (i : ℕ)
    (h : i < pool.length) :
    nthQ (scoreList pool w) i =
      w.w_ppg * nthQ (minmax (pool.map fun c => coerceNum c.ppg)) i +
      w.w_ict * nthQ (minmax (pool.map fun c => coerceNum c.ict)) i +
      w.w_fix * nthQ (minmax (pool.map fun c => coerceNum c.fixtureEase)) i +
      w.w_form * nthQ (minmax (pool.map fun c => coerceNum c.form)) i +
      (0.05 : ℚ) * (if (pool.getD i default).returning then 1 else 0) := by
  unfold scoreList
  rw [nthQ_map _ _ _ 0 (by simpa using h)]
  rw [List.getD_eq_getElem _ _ (by simpa using h)]
  simp

theorem nthQ_scoreList_metric (pool : List Candidate) (w : Weights) (i : ℕ)
    (h : i < pool.length) :
    nthQ (scoreList pool w) i =
      weightOf 0 w * nthQ (metricCol pool 0) i +
      weightOf 1 w * nthQ (metricCol pool 1) i +
      weightOf 2 w * nthQ (metricCol pool 2) i +
      weightOf 3 w * nthQ (metricCol pool 3) i +
      (0.05 : ℚ) * (if (pool.getD i default).returning then 1 else 0) := by
  rw [nthQ_scoreList pool w i h]
  rfl

theorem all_eq_minmax (l : List ℚ) (v : ℚ) (h : ∀ x ∈ l, x = v) :
    minmax l = l.map fun _ => 0 := by
  cases l with
  | nil => simp [minmax]
  | cons a as =>
    have hmax : listMax (a :: as) = v := by
      apply le_antisymm
      · rw [listMax, foldl_max_le_iff]
        exact ⟨le_of_eq (h a (List.mem_cons_self a as)),
          fun y hy => le_of_eq (h y (List.mem_cons_of_mem a hy))⟩
      · have := h a (List.mem_cons_self a as)
        calc v = a := this.symm
          _ ≤ listMax (a :: as) := le_listMax (List.mem_cons_self a as)
    have hmin : listMin (a :: as) = v := by
      apply le_antisymm
      · have := h a (List.mem_cons_self a as)
        calc listMin (a :: as) ≤ a := listMin_le (List.mem_cons_self a as)
          _ = v := this
      · rw [listMin, le_foldl_min_iff]
        exact ⟨le_of_eq (h a (List.mem_cons_self a as)).symm,
          fun y hy => le_of_eq (h y (List.mem_cons_of_mem a hy)).symm⟩
    unfold minmax
    rw [hmax, hmin, if_pos rfl]

theorem minmax_nth_eq_of_eq (l : List ℚ) (i j : ℕ) (hi : i < l.length)
    (hj : j < l.length) (h : nthQ l i = nthQ l j) :
    nthQ (minmax l) i = nthQ (minmax l) j := by
  rw [nthQ_minmax l i hi, nthQ_minmax l j hj, h]

theorem minmax_nth_lt (l : List ℚ) (i j : ℕ) (hi : i < l.length)
    (hj : j < l.length) (h : nthQ l j < nthQ l i) :
    nthQ (minmax l) j < nthQ (minmax l) i := by
  have hmemi : nthQ l i ∈ l := getD_mem l i 0 hi
  have hmemj : nthQ l j ∈ l := getD_mem l j 0 hj
  have hle1 : nthQ l i ≤ listMax l := le_listMax hmemi
  have hle2 : listMin l ≤ nthQ l j := listMin_le hmemj
  have hne : listMax l ≠ listMin l := by
    intro he
    have : listMax l ≤ nthQ l j := he ▸ hle2
    linarith
  have hpos : 0 < listMax l - listMin l := by
    rcases lt_or_eq_of_le (le_trans hle2 (le_trans (le_of_lt h) hle1)) with hlt | heq
    · linarith
    · exact absurd heq.symm hne
  rw [nthQ_minmax l i hi, nthQ_minmax l j hj, if_neg hne, if_neg hne]
  apply div_lt_div_of_pos_right _ hpos
  linarith

theorem metricCol_eq (pool : List Candidate) {i j : ℕ}
    (hi : i < pool.length) (hj : j < pool.length) (m : Fin 4)
    (h : metricOf m (pool.getD i default) = metricOf m (pool.getD j default)) :
    nthQ (metricCol pool m) i = nthQ (metricCol pool m) j := by
  apply minmax_nth_eq_of_eq _ _ _ (by simpa using hi) (by simpa using hj)
  rw [nthQ_map _ _ _ default hi, nthQ_map _ _ _ default hj, h]

theorem metricCol_lt (pool : List Candidate) {i j : ℕ}
    (hi : i < pool.length) (hj : j < pool.length) (m : Fin 4)
    (h : coerceNum (metricOf m (pool.getD j default)) <
         coerceNum (metricOf m (pool.getD i default))) :
    nthQ (metricCol pool m) j < nthQ (metricCol pool m) i := by
  apply minmax_nth_lt _ _ _ (by simpa using hi) (by simpa using hj)
  rw [nthQ_map _ _ _ default hi, nthQ_map _ _ _ default hj]
  exact h

/-- Claim C7: after the stats/live-metrics merge, Available_nextGW is true
iff the status code is active ("a") or doubtful ("d") and the
probability-of-playing percentage is at least 75 or missing. -/
theorem claim_C7_available (status : Option String) (chance : Option ℚ) :
    available_nextGW status chance = true ↔
      ((status = some "a" ∨ status = some "d") ∧
       (75 ≤ chance.getD 100) ∧
       (chance = none ∨ ∃ q : ℚ, chance = some q ∧ 75 ≤ q)) := by
  cases chance <;> simp [available_nextGW]

/-- Claim C5: a zero-range metric is normalized to 0 for every candidate,
and for a pool whose candidates share identical values on all four metrics
the composite score of each candidate is exactly its injury bonus
(0.05 if the returning flag is set, else 0). -/
theorem claim_C5_constant_pool :
    (∀ (l : List ℚ) (v : ℚ), (∀ x ∈ l, x = v) → minmax l = l.map fun _ => 0) ∧
    (∀ (pool : List Candidate) (w : Weights) (p q f g : Option ℚ),
      (∀ c ∈ pool, c.ppg = p ∧ c.ict = q ∧ c.fixtureEase = f ∧ c.form = g) →
      ∀ i : ℕ, i < pool.length →
        nthQ (scoreList pool w) i =
          if (pool.getD i default).returning then (0.05 : ℚ) else 0) := by
  constructor
  · exact all_eq_minmax
  · intro pool w p q f g hconst i hi
    have hz : ∀ (sel : Candidate → Option ℚ) (v : Option ℚ),
        (∀ c ∈ pool, sel c = v) →
        nthQ (minmax (pool.map fun c => coerceNum (sel c))) i = 0 := by
      intro sel v hsel
      rw [all_eq_minmax (pool.map fun c => coerceNum (sel c)) (coerceNum v) ?_]
      · rw [List.map_map, nthQ_map _ _ _ default hi]
        rfl
      · intro x hx
        rcases List.mem_map.mp hx with ⟨c, hc, rfl⟩
        rw [hsel c hc]
    rw [nthQ_scoreList pool w i hi,
      hz (fun c => c.ppg) p (fun c hc => (hconst c hc).1),
      hz (fun c => c.ict) q (fun c hc => (hconst c hc).2.1),
      hz (fun c => c.fixtureEase) f (fun c hc => (hconst c hc).2.2.1),
      hz (fun c => c.form) g (fun c hc => (hconst c hc).2.2.2)]
    split <;> ring

/-- Witness for claim C5 at a concrete two-candidate pool (identical
metrics, first candidate flagged as returning). -/
theorem claim_C5_constant_pool_witness :
    (∀ c ∈ [Candidate.mk (some 2) (some 3) none (some 1) true,
            Candidate.mk (some 2) (some 3) none (some 1) false],
       c.ppg = some 2 ∧ c.ict = some 3 ∧ c.fixtureEase = none ∧ c.form = some 1) ∧
    (0 : ℕ) < 2 ∧
    nthQ (scoreList
        [Candidate.mk (some 2) (some 3) none (some 1) true,
         Candidate.mk (some 2) (some 3) none (some 1) false]
        (Weights.mk 1 (6/10) (8/10) (6/10))) 0 =
      if (([Candidate.mk (some 2) (some 3) none (some 1) true,
            Candidate.mk (some 2) (some 3) none (some 1) false].getD 0
              default).returning) then (0.05 : ℚ) else 0 :=
  ⟨by decide, by decide,
    claim_C5_constant_pool.2
      [Candidate.mk (some 2) (some 3) none (some 1) true,
       Candidate.mk (some 2) (some 3) none (some 1) false]
      (Weights.mk 1 (6/10) (8/10) (6/10))
      (some 2) (some 3) none (some 1) (by decide) 0 (by decide)⟩

/-- Claim C9: a null metric cell is coerced to 0 and participates in the
normalization (the normalized column keeps its row), and when every
non-null value of the metric is non-negative the null candidate receives
the minimum normalized value, namely 0. -/
theorem claim_C9_null_metric (vals : List (Option ℚ)) (i : ℕ)
    (hi : i < vals.length)
    (hnull : vals.getD i none = none)
    (hpos : ∀ v ∈ vals, ∀ q : ℚ, v = some q → 0 ≤ q) :
    (minmax (vals.map coerceNum)).length = vals.length ∧
    nthQ (minmax (vals.map coerceNum)) i = 0 ∧
    ∀ j : ℕ, j < vals.length →
      nthQ (minmax (vals.map coerceNum)) i ≤ nthQ (minmax (vals.map coerceNum)) j := by
  have hlen : (vals.map coerceNum).length = vals.length := by simp
  have hzero : nthQ (vals.map coerceNum) i = 0 := by
    rw [nthQ_map _ _ _ none hi, hnull]
    rfl
  have hnn : ∀ x ∈ vals.map coerceNum, 0 ≤ x := by
    intro x hx
    rcases List.mem_map.mp hx with ⟨v, hv, rfl⟩
    cases v with
    | none => exact le_rfl
    | some q => exact hpos _ hv q rfl
  have hne : vals.map coerceNum ≠ [] := by
    intro he
    rw [← hlen, he] at hi
    exact absurd hi (by simp)
  have hminz : listMin (vals.map coerceNum) = 0 := by
    apply le_antisymm
    · calc listMin (vals.map coerceNum) ≤ nthQ (vals.map coerceNum) i :=
          listMin_le (getD_mem _ _ _ (by rwa [hlen]))
        _ = 0 := hzero
    · exact le_listMin hne hnn
  refine ⟨by rw [length_minmax, hlen], ?_, ?_⟩
  · rw [nthQ_minmax _ _ (by rwa [hlen])]
    split
    · rfl
    · rw [hzero, hminz]
      simp
  · intro j hj
    rw [nthQ_minmax _ _ (by rwa [hlen]), nthQ_minmax _ _ (by rwa [hlen])]
    split
    · exact le_rfl
    · rw [hzero, hminz]
      have hmaxpos : (0 : ℚ) < listMax (vals.map coerceNum) := by
        have h1 : listMin (vals.map coerceNum) ≤ nthQ (vals.map coerceNum) i :=
          listMin_le (getD_mem _ _ _ (by rwa [hlen]))
        have h2 : nthQ (vals.map coerceNum) i ≤ listMax (vals.map coerceNum) :=
          le_listMax (getD_mem _ _ _ (by rwa [hlen]))
        rcases lt_or_eq_of_le (le_trans h1 h2) with hlt | heq
        · rw [hminz] at hlt
          exact hlt
        · exact absurd heq.symm (by assumption)
      have hjnn : 0 ≤ nthQ (vals.map coerceNum) j :=
        hnn _ (getD_mem _ _ _ (by rwa [hlen]))
      simp only [sub_zero, zero_div]
      exact div_nonneg hjnn (le_of_lt hmaxpos)

/-- Witness for claim C9 at a concrete column with one null cell. -/
theorem claim_C9_null_metric_witness :
    ((1 : ℕ) < 3) ∧
    ([some (3 : ℚ), none, some 1].getD 1 none = none) ∧
    ((minmax ([some (3 : ℚ), none, some 1].map coerceNum)).length = 3 ∧
     nthQ (minmax ([some (3 : ℚ), none, some 1].map coerceNum)) 1 = 0 ∧
     ∀ j : ℕ, j < [some (3 : ℚ), none, some 1].length →
       nthQ (minmax ([some (3 : ℚ), none, some 1].map coerceNum)) 1 ≤
         nthQ (minmax ([some (3 : ℚ), none, some 1].map coerceNum)) j) :=
  ⟨by decide, by decide,
    claim_C9_null_metric [some 3, none, some 1] 1 (by decide) (by decide)
      (by decide)⟩

/-- Claim C4: if candidate i has a strictly higher (coerced) value than
candidate j on metric k, equal values on the other metrics, and an equal
returning flag, then raising the weight of metric k (holding the other
weights fixed) never decreases i's score advantage over j; in particular
i's rank relative to j (by descending score) never decreases. -/
theorem claim_C4_weight_monotone (pool : List Candidate) (w w' : Weights)
    (k : Fin 4) (i j : ℕ) (hi : i < pool.length) (hj : j < pool.length)
    (hm : ∀ m : Fin 4, m ≠ k →
      metricOf m (pool.getD i default) = metricOf m (pool.getD j default))
    (hr : (pool.getD i default).returning = (pool.getD j default).returning)
    (hk : coerceNum (metricOf k (pool.getD j default)) <
          coerceNum (metricOf k (pool.getD i default)))
    (hw : ∀ m : Fin 4, m ≠ k → weightOf m w' = weightOf m w)
    (hkw : weightOf k w ≤ weightOf k w') :
    (nthQ (scoreList pool w) i - nthQ (scoreList pool w) j ≤
       nthQ (scoreList pool w') i - nthQ (scoreList pool w') j) ∧
    (nthQ (scoreList pool w) j ≤ nthQ (scoreList pool w) i →
       nthQ (scoreList pool w') j ≤ nthQ (scoreList pool w') i) ∧
    (nthQ (scoreList pool w) j < nthQ (scoreList pool w) i →
       nthQ (scoreList pool w') j < nthQ (scoreList pool w') i) := by
  have hdiff : nthQ (scoreList pool w) i - nthQ (scoreList pool w) j ≤
      nthQ (scoreList pool w') i - nthQ (scoreList pool w') j := by
    rw [nthQ_scoreList_metric pool w i hi, nthQ_scoreList_metric pool w j hj,
        nthQ_scoreList_metric pool w' i hi, nthQ_scoreList_metric pool w' j hj, hr]
    have hkcol : nthQ (metricCol pool k) j < nthQ (metricCol pool k) i :=
      metricCol_lt pool hi hj k hk
    fin_cases k
    · have e1 := metricCol_eq pool hi hj 1 (hm 1 (by decide))
      have e2 := metricCol_eq pool hi hj 2 (hm 2 (by decide))
      have e3 := metricCol_eq pool hi hj 3 (hm 3 (by decide))
      have f1 := hw 1 (by decide)
      have f2 := hw 2 (by decide)
      have f3 := hw 3 (by decide)
      have hc2 : nthQ (metricCol pool 0) j < nthQ (metricCol pool 0) i := hkcol
      have hw2 : weightOf 0 w ≤ weightOf 0 w' := hkw
      rw [e1, e2, e3, f1, f2, f3]
      have hsub : (0 : ℚ) ≤ nthQ (metricCol pool 0) i - nthQ (metricCol pool 0) j := by
        linarith
      have hprod := mul_le_mul_of_nonneg_right hw2 hsub
      linarith [hprod]
    · have e1 := metricCol_eq pool hi hj 0 (hm 0 (by decide))
      have e2 := metricCol_eq pool hi hj 2 (hm 2 (by decide))
      have e3 := metricCol_eq pool hi hj 3 (hm 3 (by decide))
      have f1 := hw 0 (by decide)
      have f2 := hw 2 (by decide)
      have f3 := hw 3 (by decide)
      have hc2 : nthQ (metricCol pool 1) j < nthQ (metricCol pool 1) i := hkcol
      have hw2 : weightOf 1 w ≤ weightOf 1 w' := hkw
      rw [e1, e2, e3, f1, f2, f3]
      have hsub : (0 : ℚ) ≤ nthQ (metricCol pool 1) i - nthQ (metricCol pool 1) j := by
        linarith
      have hprod := mul_le_mul_of_nonneg_right hw2 hsub
      linarith [hprod]
    · have e1 := metricCol_eq pool hi hj 0 (hm 0 (by decide))
      have e2 := metricCol_eq pool hi hj 1 (hm 1 (by decide))
      have e3 := metricCol_eq pool hi hj 3 (hm 3 (by decide))
      have f1 := hw 0 (by decide)
      have f2 := hw 1 (by decide)
      have f3 := hw 3 (by decide)
      have hc2 : nthQ (metricCol pool 2) j < nthQ (metricCol pool 2) i := hkcol
      have hw2 : weightOf 2 w ≤ weightOf 2 w' := hkw
      rw [e1, e2, e3, f1, f2, f3]
      have hsub : (0 : ℚ) ≤ nthQ (metricCol pool 2) i - nthQ (metricCol pool 2) j := by
        linarith
      have hprod := mul_le_mul_of_nonneg_right hw2 hsub
      linarith [hprod]
    · have e1 := metricCol_eq pool hi hj 0 (hm 0 (by decide))
      have e2 := metricCol_eq pool hi hj 1 (hm 1 (by decide))
      have e3 := metricCol_eq pool hi hj 2 (hm 2 (by decide))
      have f1 := hw 0 (by decide)
      have f2 := hw 1 (by decide)
      have f3 := hw 2 (by decide)
      have hc2 : nthQ (metricCol pool 3) j < nthQ (metricCol pool 3) i := hkcol
      have hw2 : weightOf 3 w ≤ weightOf 3 w' := hkw
      rw [e1, e2, e3, f1, f2, f3]
      have hsub : (0 : ℚ) ≤ nthQ (metricCol pool 3) i - nthQ (metricCol pool 3) j := by
        linarith
      have hprod := mul_le_mul_of_nonneg_right hw2 hsub
      linarith [hprod]
  exact ⟨hdiff, fun h => by linarith, fun h => by linarith⟩

/-- Witness for claim C4: two candidates differing only on the ICT metric
(metric index 1), with the ICT weight raised from 1 to 2. -/
theorem claim_C4_weight_monotone_witness :
    coerceNum (metricOf 1 (Candidate.mk (some 1) (some 1) none (some 1) false)) <
      coerceNum (metricOf 1 (Candidate.mk (some 1) (some 2) none (some 1) false)) ∧
    weightOf 1 (Weights.mk 1 1 1 1) ≤
      weightOf 1 (Weights.mk 1 2 1 1) ∧
    ((nthQ (scoreList [Candidate.mk (some 1) (some 2) none (some 1) false,
                       Candidate.mk (some 1) (some 1) none (some 1) false]
           (Weights.mk 1 1 1 1)) 0 -
        nthQ (scoreList [Candidate.mk (some 1) (some 2) none (some 1) false,
                         Candidate.mk (some 1) (some 1) none (some 1) false]
           (Weights.mk 1 1 1 1)) 1 ≤
      nthQ (scoreList [Candidate.mk (some 1) (some 2) none (some 1) false,
                       Candidate.mk (some 1) (some 1) none (some 1) false]
           (Weights.mk 1 2 1 1)) 0 -
        nthQ (scoreList [Candidate.mk (some 1) (some 2) none (some 1) false,
                         Candidate.mk (some 1) (some 1) none (some 1) false]
           (Weights.mk 1 2 1 1)) 1) ∧
     (nthQ (scoreList [Candidate.mk (some 1) (some 2) none (some 1) false,
                       Candidate.mk (some 1) (some 1) none (some 1) false]
           (Weights.mk 1 1 1 1)) 1 ≤
        nthQ (scoreList [Candidate.mk (some 1) (some 2) none (some 1) false,
                         Candidate.mk (some 1) (some 1) none (some 1) false]
           (Weights.mk 1 1 1 1)) 0 →
      nthQ (scoreList [Candidate.mk (some 1) (some 2) none (some 1) false,
                       Candidate.mk (some 1) (some 1) none (some 1) false]
           (Weights.mk 1 2 1 1)) 1 ≤
        nthQ (scoreList [Candidate.mk (some 1) (some 2) none (some 1) false,
                         Candidate.mk (some 1) (some 1) none (some 1) false]
           (Weights.mk 1 2 1 1)) 0) ∧
     (nthQ (scoreList [Candidate.mk (some 1) (some 2) none (some 1) false,
                       Candidate.mk (some 1) (some 1) none (some 1) false]
           (Weights.mk 1 1 1 1)) 1 <
        nthQ (scoreList [Candidate.mk (some 1) (some 2) none (some 1) false,
                         Candidate.mk (some 1) (some 1) none (some 1) false]
           (Weights.mk 1 1 1 1)) 0 →
      nthQ (scoreList [Candidate.mk (some 1) (some 2) none (some 1) false,
                       Candidate.mk (some 1) (some 1) none (some 1) false]
           (Weights.mk 1 2 1 1)) 1 <
        nthQ (scoreList [Candidate.mk (some 1) (some 2) none (some 1) false,
                         Candidate.mk (some 1) (some 1) none (some 1) false]
           (Weights.mk 1 2 1 1)) 0)) :=
  ⟨by decide, by decide,
    claim_C4_weight_monotone
      [Candidate.mk (some 1) (some 2) none (some 1) false,
       Candidate.mk (some 1) (some 1) none (some 1) false]
      (Weights.mk 1 1 1 1) (Weights.mk 1 2 1 1)
      1 0 1 (by decide) (by decide) (by decide) (by decide) (by decide)
      (by decide) (by decide)⟩

/-! ### Lemmas about normalize_name -/

theorem isSpaceCh_iff {c : Char} : isSpaceCh c = true ↔
    c = ' ' ∨ c = '\t' ∨ c = '\n' ∨ c = '\x0b' ∨ c = '\x0c' ∨ c = '\r' := by
  simp [isSpaceCh, or_assoc]

theorem space_not_alpha {c : Char} (h : isSpaceCh c = true) : isLowerAlpha c = false := by
  rcases isSpaceCh_iff.mp h with rfl | rfl | rfl | rfl | rfl | rfl <;> decide

theorem alpha_not_space {c : Char} (h : isLowerAlpha c = true) : isSpaceCh c = false := by
  cases hs : isSpaceCh c
  · rfl
  · rw [space_not_alpha hs] at h
    cases h

theorem isLowerAlpha_space : isLowerAlpha ' ' = false := by decide

theorem isSpaceCh_space : isSpaceCh ' ' = true := by decide

theorem nds_subNonAlpha (l : List Char) :
    ndsTail (subNonAlpha l) = true ∧ ndsSpace (skipNonAlpha l) = true := by
  induction l with
  | nil => exact ⟨rfl, rfl⟩
  | cons c cs ih =>
    by_cases hc : isLowerAlpha c = true
    · have h1 : subNonAlpha (c :: cs) = c :: subNonAlpha cs := by
        simp [subNonAlpha, hc]
      have h2 : skipNonAlpha (c :: cs) = c :: subNonAlpha cs := by
        simp [skipNonAlpha, hc]
      constructor
      · rw [h1]
        simp [ndsTail, hc, ih.1]
      · rw [h2]
        simp [ndsSpace, hc, ih.1]
    · have h1 : subNonAlpha (c :: cs) = ' ' :: skipNonAlpha cs := by
        simp [subNonAlpha, hc]
      have h2 : skipNonAlpha (c :: cs) = skipNonAlpha cs := by
        simp [skipNonAlpha, hc]
      constructor
      · rw [h1]
        simp [ndsTail, isLowerAlpha_space, ih.2]
      · rw [h2]
        exact ih.2

theorem subSpaces_fix (l : List Char) :
    (ndsTail l = true → subSpaces l = l) ∧
    (ndsSpace l = true → skipSpaces l = l) := by
  induction l with
  | nil => exact ⟨fun _ => rfl, fun _ => rfl⟩
  | cons c cs ih =>
    constructor
    · intro h
      by_cases hc : isLowerAlpha c = true
      · have hh : ndsTail cs = true := by
          have := h
          simp [ndsTail, hc] at this
          exact this
        have h1 : subSpaces (c :: cs) = c :: subSpaces cs := by
          simp [subSpaces, alpha_not_space hc]
        rw [h1, ih.1 hh]
      · have hh : c = ' ' ∧ ndsSpace cs = true := by
          have := h
          simp [ndsTail, hc] at this
          exact this
        obtain ⟨rfl, hcs⟩ := hh
        have h1 : subSpaces (' ' :: cs) = ' ' :: skipSpaces cs := by
          simp [subSpaces, isSpaceCh_space]
        rw [h1, ih.2 hcs]
    · intro h
      have hh : isLowerAlpha c = true ∧ ndsTail cs = true := by
        have := h
        simp [ndsSpace] at this
        exact this
      have h1 : skipSpaces (c :: cs) = c :: subSpaces cs := by
        simp [skipSpaces, alpha_not_space hh.1]
      rw [h1, ih.1 hh.2]

theorem canonTail_cons (c : Char) (cs : List Char) :
    canonTail (c :: cs) =
      if isLowerAlpha c then canonTail cs else (decide (c = ' ') && canonSpace cs) := by
  simp only [canonTail]

theorem canonSpace_cons (c : Char) (cs : List Char) :
    canonSpace (c :: cs) = (isLowerAlpha c && canonTail cs) := by
  simp only [canonSpace]

theorem canon_cons (c : Char) (cs : List Char) :
    canon (c :: cs) = (isLowerAlpha c && canonTail cs) := by
  simp only [canon]

theorem ndsTail_cons (c : Char) (cs : List Char) :
    ndsTail (c :: cs) =
      if isLowerAlpha c then ndsTail cs else (decide (c = ' ') && ndsSpace cs) := by
  simp only [ndsTail]

theorem ndsSpace_cons (c : Char) (cs : List Char) :
    ndsSpace (c :: cs) = (isLowerAlpha c && ndsTail cs) := by
  simp only [ndsSpace]

theorem dropTrailingSpaces_cons (c : Char) (cs : List Char) :
    dropTrailingSpaces (c :: cs) =
      match dropTrailingSpaces cs with
      | [] => if isSpaceCh c then [] else [c]
      | ds => c :: ds := by
  simp only [dropTrailingSpaces]

theorem dropWhile_nds (l : List Char) (h : ndsTail l = true) :
    ndsTail (l.dropWhile isSpaceCh) = true ∧
    (l.dropWhile isSpaceCh = [] ∨
      ∃ d ds, l.dropWhile isSpaceCh = d :: ds ∧ isLowerAlpha d = true) := by
  cases l with
  | nil => exact ⟨rfl, Or.inl rfl⟩
  | cons c cs =>
    by_cases hc : isLowerAlpha c = true
    · have hd : (c :: cs).dropWhile isSpaceCh = c :: cs := by
        simp [List.dropWhile_cons, alpha_not_space hc]
      rw [hd]
      exact ⟨h, Or.inr ⟨c, cs, rfl, hc⟩⟩
    · have hh : c = ' ' ∧ ndsSpace cs = true := by
        have h2 := h
        rw [ndsTail_cons, if_neg hc] at h2
        simpa using h2
      obtain ⟨rfl, hcs⟩ := hh
      have hd : (' ' :: cs).dropWhile isSpaceCh = cs.dropWhile isSpaceCh := by
        simp [List.dropWhile_cons, isSpaceCh_space]
      rw [hd]
      cases cs with
      | nil => exact ⟨rfl, Or.inl rfl⟩
      | cons d ds =>
        have hdd : isLowerAlpha d = true ∧ ndsTail ds = true := by
          have h2 := hcs
          rw [ndsSpace_cons] at h2
          simpa using h2
        have hd2 : (d :: ds).dropWhile isSpaceCh = d :: ds := by
          simp [List.dropWhile_cons, alpha_not_space hdd.1]
        rw [hd2]
        constructor
        · rw [ndsTail_cons, if_pos hdd.1]
          exact hdd.2
        · exact Or.inr ⟨d, ds, rfl, hdd.1⟩

theorem dts_canon (l : List Char) :
    (ndsTail l = true → canonTail (dropTrailingSpaces l) = true) ∧
    (ndsSpace l = true →
      dropTrailingSpaces l = [] ∨ canonSpace (dropTrailingSpaces l) = true) := by
  induction l with
  | nil => exact ⟨fun _ => rfl, fun _ => Or.inl rfl⟩
  | cons c cs ih =>
    constructor
    · intro h
      by_cases hc : isLowerAlpha c = true
      · have hcs : ndsTail cs = true := by
          have h2 := h
          rw [ndsTail_cons, if_pos hc] at h2
          exact h2
        have h1 := ih.1 hcs
        cases hdts : dropTrailingSpaces cs with
        | nil =>
          rw [dropTrailingSpaces_cons, hdts]
          simp only [alpha_not_space hc, Bool.false_eq_true, if_false]
          rw [canonTail_cons, if_pos hc]
          rfl
        | cons d ds =>
          rw [dropTrailingSpaces_cons, hdts]
          rw [hdts] at h1
          rw [canonTail_cons, if_pos hc]
          exact h1
      · have hh : c = ' ' ∧ ndsSpace cs = true := by
          have h2 := h
          rw [ndsTail_cons, if_neg hc] at h2
          simpa using h2
        obtain ⟨rfl, hcs⟩ := hh
        rcases ih.2 hcs with hnil | hcsp
        · rw [dropTrailingSpaces_cons, hnil]
          simp only [isSpaceCh_space, if_true]
          rfl
        · cases hdts : dropTrailingSpaces cs with
          | nil =>
            rw [dropTrailingSpaces_cons, hdts]
            simp only [isSpaceCh_space, if_true]
            rfl
          | cons d ds =>
            rw [dropTrailingSpaces_cons, hdts]
            rw [hdts] at hcsp
            rw [canonTail_cons,
              if_neg (by simp [isLowerAlpha_space] : ¬ isLowerAlpha ' ' = true)]
            simpa using hcsp
    · intro h
      have hh : isLowerAlpha c = true ∧ ndsTail cs = true := by
        have h2 := h
        rw [ndsSpace_cons] at h2
        simpa using h2
      have h1 := ih.1 hh.2
      cases hdts : dropTrailingSpaces cs with
      | nil =>
        rw [dropTrailingSpaces_cons, hdts]
        simp only [alpha_not_space hh.1, Bool.false_eq_true, if_false]
        apply Or.inr
        rw [canonSpace_cons, hh.1]
        rfl
      | cons d ds =>
        rw [dropTrailingSpaces_cons, hdts]
        rw [hdts] at h1
        apply Or.inr
        rw [canonSpace_cons, hh.1, h1]
        rfl

theorem head_dts (c : Char) (cs : List Char) :
    dropTrailingSpaces (c :: cs) = [] ∨
    ∃ ds, dropTrailingSpaces (c :: cs) = c :: ds := by
  cases hdts : dropTrailingSpaces cs with
  | nil =>
    rw [dropTrailingSpaces_cons, hdts]
    by_cases hc : isSpaceCh c = true
    · rw [if_pos hc]
      exact Or.inl rfl
    · rw [if_neg hc]
      exact Or.inr ⟨[], rfl⟩
  | cons d ds =>
    rw [dropTrailingSpaces_cons, hdts]
    exact Or.inr ⟨d :: ds, rfl⟩

theorem canon_pyStrip (l : List Char) (h : ndsTail l = true) :
    canon (pyStripChars l) = true := by
  obtain ⟨h1, h2⟩ := dropWhile_nds l h
  rcases h2 with hnil | ⟨d, ds, heq, hd⟩
  · unfold pyStripChars
    rw [hnil]
    rfl
  · unfold pyStripChars
    rw [heq]
    rw [heq] at h1
    have hct := (dts_canon (d :: ds)).1 h1
    rcases head_dts d ds with hz | ⟨ds2, hz⟩
    · rw [hz]
      rfl
    · rw [hz]
      rw [hz, canonTail_cons, if_pos hd] at hct
      rw [canon_cons, hd, hct]
      rfl

theorem canon_chars (l : List Char) :
    (canonTail l = true → ∀ c ∈ l, isLowerAlpha c = true ∨ c = ' ') ∧
    (canonSpace l = true → ∀ c ∈ l, isLowerAlpha c = true ∨ c = ' ') := by
  induction l with
  | nil => exact ⟨fun _ c hc => absurd hc (by simp), fun _ c hc => absurd hc (by simp)⟩
  | cons c cs ih =>
    constructor
    · intro h d hd
      by_cases hc : isLowerAlpha c = true
      · rw [canonTail_cons, if_pos hc] at h
        rcases List.mem_cons.mp hd with rfl | hmem
        · exact Or.inl hc
        · exact ih.1 h d hmem
      · rw [canonTail_cons, if_neg hc] at h
        have hh : c = ' ' ∧ canonSpace cs = true := by simpa using h
        obtain ⟨rfl, hcs⟩ := hh
        rcases List.mem_cons.mp hd with rfl | hmem
        · exact Or.inr rfl
        · exact ih.2 hcs d hmem
    · intro h d hd
      rw [canonSpace_cons] at h
      have hh : isLowerAlpha c = true ∧ canonTail cs = true := by simpa using h
      rcases List.mem_cons.mp hd with rfl | hmem
      · exact Or.inl hh.1
      · exact ih.1 hh.2 d hmem

theorem canon_chars_of_canon (l : List Char) (h : canon l = true) :
    ∀ c ∈ l, isLowerAlpha c = true ∨ c = ' ' := by
  cases l with
  | nil => exact fun c hc => absurd hc (by simp)
  | cons c cs =>
    rw [canon_cons] at h
    have hh : isLowerAlpha c = true ∧ canonTail cs = true := by simpa using h
    intro d hd
    rcases List.mem_cons.mp hd with rfl | hmem
    · exact Or.inl hh.1
    · exact (canon_chars cs).1 hh.2 d hmem

theorem alpha_toNat {c : Char} (h : isLowerAlpha c = true) :
    97 ≤ c.toNat ∧ c.toNat ≤ 122 := by
  have hh : ('a' ≤ c) ∧ (c ≤ 'z') := by simpa [isLowerAlpha] using h
  obtain ⟨h1, h2⟩ := hh
  rw [Char.le_def, UInt32.le_def, BitVec.le_def] at h1 h2
  exact ⟨h1, h2⟩

theorem asciiIgnore_fix (l : List Char)
    (h : ∀ c ∈ l, isLowerAlpha c = true ∨ c = ' ') : asciiIgnore l = l := by
  unfold asciiIgnore
  rw [List.filter_eq_self]
  intro a ha
  rcases h a ha with hA | rfl
  · have := (alpha_toNat hA).2
    simp only [decide_eq_true_eq]
    omega
  · decide

theorem toLower_fix {c : Char} (h : isLowerAlpha c = true ∨ c = ' ') :
    c.toLower = c := by
  rcases h with hA | rfl
  · have h97 := (alpha_toNat hA).1
    simp only [Char.toLower]
    split
    · next hcond => exact absurd hcond (by omega)
    · rfl
  · decide

theorem lowerChars_fix (l : List Char)
    (h : ∀ c ∈ l, isLowerAlpha c = true ∨ c = ' ') : lowerChars l = l := by
  unfold lowerChars
  have hmap : l.map Char.toLower = l.map id :=
    List.map_congr_left (fun a ha => toLower_fix (h a ha))
  rw [hmap, List.map_id]

theorem canon_imp_nds (l : List Char) :
    (canonTail l = true → ndsTail l = true) ∧
    (canonSpace l = true → ndsSpace l = true) := by
  induction l with
  | nil => exact ⟨fun _ => rfl, fun _ => rfl⟩
  | cons c cs ih =>
    constructor
    · intro h
      by_cases hc : isLowerAlpha c = true
      · rw [canonTail_cons, if_pos hc] at h
        rw [ndsTail_cons, if_pos hc]
        exact ih.1 h
      · rw [canonTail_cons, if_neg hc] at h
        have hh : c = ' ' ∧ canonSpace cs = true := by simpa using h
        obtain ⟨rfl, hcs⟩ := hh
        rw [ndsTail_cons, if_neg hc]
        simp [ih.2 hcs]
    · intro h
      rw [canonSpace_cons] at h
      have hh : isLowerAlpha c = true ∧ canonTail cs = true := by simpa using h
      rw [ndsSpace_cons]
      simp [hh.1, ih.1 hh.2]

theorem subNonAlpha_fixpoint (l : List Char) :
    (canonTail l = true → subNonAlpha l = l) ∧
    (canonSpace l = true → skipNonAlpha l = l) := by
  induction l with
  | nil => exact ⟨fun _ => rfl, fun _ => rfl⟩
  | cons c cs ih =>
    constructor
    · intro h
      by_cases hc : isLowerAlpha c = true
      · rw [canonTail_cons, if_pos hc] at h
        have h1 : subNonAlpha (c :: cs) = c :: subNonAlpha cs := by
          simp [subNonAlpha, hc]
        rw [h1, ih.1 h]
      · rw [canonTail_cons, if_neg hc] at h
        have hh : c = ' ' ∧ canonSpace cs = true := by simpa using h
        obtain ⟨rfl, hcs⟩ := hh
        have h1 : subNonAlpha (' ' :: cs) = ' ' :: skipNonAlpha cs := by
          simp [subNonAlpha, isLowerAlpha_space]
        rw [h1, ih.2 hcs]
    · intro h
      rw [canonSpace_cons] at h
      have hh : isLowerAlpha c = true ∧ canonTail cs = true := by simpa using h
      have h1 : skipNonAlpha (c :: cs) = c :: subNonAlpha cs := by
        simp [skipNonAlpha, hh.1]
      rw [h1, ih.1 hh.2]

theorem subNonAlpha_fix_canon (l : List Char) (h : canon l = true) :
    subNonAlpha l = l := by
  cases l with
  | nil => rfl
  | cons c cs =>
    rw [canon_cons] at h
    have hh : isLowerAlpha c = true ∧ canonTail cs = true := by simpa using h
    have h1 : subNonAlpha (c :: cs) = c :: subNonAlpha cs := by
      simp [subNonAlpha, hh.1]
    rw [h1, (subNonAlpha_fixpoint cs).1 hh.2]

theorem dropWhile_fix_canon (l : List Char) (h : canon l = true) :
    l.dropWhile isSpaceCh = l := by
  cases l with
  | nil => rfl
  | cons c cs =>
    rw [canon_cons] at h
    have hh : isLowerAlpha c = true ∧ canonTail cs = true := by simpa using h
    simp [List.dropWhile_cons, alpha_not_space hh.1]

theorem dts_fixpoint (l : List Char) :
    (canonTail l = true → dropTrailingSpaces l = l) ∧
    (canonSpace l = true → dropTrailingSpaces l = l ∧ l ≠ []) := by
  induction l with
  | nil =>
    refine ⟨fun _ => rfl, fun h => absurd h ?_⟩
    simp [canonSpace]
  | cons c cs ih =>
    constructor
    · intro h
      by_cases hc : isLowerAlpha c = true
      · rw [canonTail_cons, if_pos hc] at h
        have h1 := ih.1 h
        rw [dropTrailingSpaces_cons, h1]
        cases cs with
        | nil => simp [alpha_not_space hc]
        | cons d ds => rfl
      · rw [canonTail_cons, if_neg hc] at h
        have hh : c = ' ' ∧ canonSpace cs = true := by simpa using h
        obtain ⟨rfl, hcs⟩ := hh
        obtain ⟨h1, h2⟩ := ih.2 hcs
        rw [dropTrailingSpaces_cons, h1]
        cases cs with
        | nil => exact absurd rfl h2
        | cons d ds => rfl
    · intro h
      rw [canonSpace_cons] at h
      have hh : isLowerAlpha c = true ∧ canonTail cs = true := by simpa using h
      have h1 := ih.1 hh.2
      refine ⟨?_, by simp⟩
      rw [dropTrailingSpaces_cons, h1]
      cases cs with
      | nil => simp [alpha_not_space hh.1]
      | cons d ds => rfl

theorem pyStrip_fix_canon (l : List Char) (h : canon l = true) :
    pyStripChars l = l := by
  unfold pyStripChars
  rw [dropWhile_fix_canon l h]
  cases l with
  | nil => rfl
  | cons c cs =>
    rw [canon_cons] at h
    have hh : isLowerAlpha c = true ∧ canonTail cs = true := by simpa using h
    have := (dts_fixpoint cs).1 hh.2
    rw [dropTrailingSpaces_cons, this]
    cases cs with
    | nil => simp [alpha_not_space hh.1]
    | cons d ds => rfl

theorem canon_normalize_name (s : String) :
    canon (normalize_name s).toList = true := by
  have h0 := nds_subNonAlpha (lowerChars (asciiIgnore s.toList))
  have h1 := (subSpaces_fix (subNonAlpha (lowerChars (asciiIgnore s.toList)))).1 h0.1
  show canon (pyStripChars (subSpaces (subNonAlpha (lowerChars (asciiIgnore s.toList))))) = true
  rw [h1]
  exact canon_pyStrip _ h0.1

theorem normalize_pipeline_fix (l : List Char) (h : canon l = true) :
    pyStripChars (subSpaces (subNonAlpha (lowerChars (asciiIgnore l)))) = l := by
  have hch := canon_chars_of_canon l h
  rw [asciiIgnore_fix l hch, lowerChars_fix l hch, subNonAlpha_fix_canon l h,
    (subSpaces_fix l).1 ((canon_imp_nds l).1 ?_), pyStrip_fix_canon l h]
  cases l with
  | nil => rfl
  | cons c cs =>
    rw [canon_cons] at h
    rw [canonTail_cons]
    have hh : isLowerAlpha c = true ∧ canonTail cs = true := by simpa using h
    rw [if_pos hh.1]
    exact hh.2

/-- Claim C8 (amended): normalize_name is idempotent for every input, and
normalize_name applied to the string O-apostrophe-Brien-Smith yields
"o brien smith" (each punctuation run folds to one space; punctuation is
not deleted). -/
theorem claim_C8_idempotent :
    (∀ s : String, normalize_name (normalize_name s) = normalize_name s) ∧
    normalize_name "O\x27Brien-Smith" = "o brien smith" := by
  constructor
  · intro s
    have hc := canon_normalize_name s
    show String.mk (pyStripChars (subSpaces (subNonAlpha (lowerChars
      (asciiIgnore (normalize_name s).toList))))) = normalize_name s
    rw [normalize_pipeline_fix _ hc]
    rfl
  · decide

/-- Counterexample for claim C8 as stated: normalize_name maps
O-apostrophe-Brien-Smith to "o brien smith", which differs from
normalize_name "obrien smith" = "obrien smith" (the claim asserted the
two would be equal). -/
theorem claim_C8_counterexample :
    ¬ (normalize_name "O\x27Brien-Smith" = normalize_name "obrien smith") := by
  decide

/-! ### Dict assignment lemmas -/

theorem dget_dset_self {α : Type} (m : List (String × α)) (k : String) (v : α) :
    dget (dset m k v) k = some v := by
  induction m with
  | nil => simp [dset, dget]
  | cons e es ih =>
    by_cases he : e.1 = k
    · simp [dset, he, dget]
    · simp only [dset, if_neg he]
      simp only [dget, List.find?_cons]
      have hne : (e.1 == k) = false := by
        simp [he]
      rw [hne]
      exact ih

theorem dget_dset_ne {α : Type} (m : List (String × α)) (k k2 : String) (v : α)
    (h : k ≠ k2) : dget (dset m k v) k2 = dget m k2 := by
  induction m with
  | nil =>
    simp only [dset, dget, List.find?_cons, List.find?_nil]
    have hne : (k == k2) = false := by simp [h]
    rw [hne]
  | cons e es ih =>
    by_cases he : e.1 = k
    · simp only [dset, if_pos he, dget, List.find?_cons]
      have hne : (k == k2) = false := by simp [h]
      rw [hne]
      have hne2 : (e.1 == k2) = false := by simp [he ▸ h]
      rw [hne2]
    · simp only [dset, if_neg he, dget, List.find?_cons]
      cases hb : (e.1 == k2) with
      | true => rfl
      | false => exact ih

theorem dset_dset_self {α : Type} (m : List (String × α)) (k : String) (v v2 : α) :
    dset (dset m k v) k v2 = dset m k v2 := by
  induction m with
  | nil => simp [dset]
  | cons e es ih =>
    by_cases he : e.1 = k
    · simp [dset, he]
    · simp only [dset, if_neg he]
      rw [ih]

/-! ### Claim C6: nested player.name versus flat name -/

theorem extract_nested_flat (x : String) :
    extract_player_name (itemNested x) = extract_player_name (itemFlat x) := by
  by_cases hx : x = ""
  · subst hx
    rfl
  · simp [extract_player_name, itemNested, itemFlat, pyOr, pyGet, pyNestedGet,
      dictLookup, truthy, hx]

theorem procPlayer_nested_flat (tid : String) (tname : PyVal) (st : LeagueState)
    (x : String) :
    procPlayer tid tname st (itemNested x) = procPlayer tid tname st (itemFlat x) := by
  unfold procPlayer
  rw [extract_nested_flat]

theorem entriesRoster_nested_flat (tid : String) (tname : PyVal) (names : List String) :
    entriesOfRoster tid tname (names.map itemNested) =
    entriesOfRoster tid tname (names.map itemFlat) := by
  induction names with
  | nil => rfl
  | cons x xs ih =>
    simp only [List.map_cons, entriesOfRoster]
    rw [extract_nested_flat, ih]

theorem rosterOfTeam_mkTeam (tid tname : String) (items : List PyVal) :
    rosterOfTeam (mkTeam tid tname items) = .ok (.list items) := by
  cases items <;> rfl

theorem teamNameOf_mkTeam (tid tname : String) (items : List PyVal) :
    teamNameOf (mkTeam tid tname items) =
      .ok (if tname = "" then .str "-" else .str tname) := by
  by_cases h : tname = ""
  · subst h
    rfl
  · simp [teamNameOf, mkTeam, pyOr, pyGet, dictLookup, truthy, h]

theorem teamIdOf_mkTeam (tid tname : String) (items : List PyVal) :
    teamIdOf (mkTeam tid tname items) =
      .ok (String.mk (pyStripChars tid.toList)) := by
  by_cases h : tid = ""
  · subst h
    rfl
  · simp [teamIdOf, mkTeam, pyOr, pyGet, dictLookup, truthy, pyStr, h]

theorem entriesOfTeam_mkTeam (tid tname : String) (items : List PyVal) :
    entriesOfTeam (mkTeam tid tname items) =
      entriesOfRoster (String.mk (pyStripChars tid.toList))
        (if tname = "" then .str "-" else .str tname) items := by
  unfold entriesOfTeam
  rw [teamNameOf_mkTeam, teamIdOf_mkTeam, rosterOfTeam_mkTeam]
  rfl

theorem entriesTeam_nested_flat (tid tname : String) (names : List String) :
    entriesOfTeam (mkTeam tid tname (names.map itemNested)) =
    entriesOfTeam (mkTeam tid tname (names.map itemFlat)) := by
  rw [entriesOfTeam_mkTeam, entriesOfTeam_mkTeam]
  exact entriesRoster_nested_flat _ _ names

theorem entriesTeams_nested_flat (ds : List (String × String × List String)) :
    entriesOfTeams (ds.map fun d => mkTeam d.1 d.2.1 (d.2.2.map itemNested)) =
    entriesOfTeams (ds.map fun d => mkTeam d.1 d.2.1 (d.2.2.map itemFlat)) := by
  induction ds with
  | nil => rfl
  | cons d rest ih =>
    simp only [List.map_cons, entriesOfTeams]
    rw [entriesTeam_nested_flat, ih]

/-- Claim C6: a payload whose player items nest the display name under
player.name extracts to the same RosterEntry list as the equivalent
payload with flat name fields, for every family of teams (ids, team
names and player-name lists arbitrary). -/
theorem claim_C6_nested_flat (ds : List (String × String × List String)) :
    extractEntries (mkLeagueNested ds) = extractEntries (mkLeagueFlat ds) :=
  entriesTeams_nested_flat ds

/-! ### Shape conditions under which extraction cannot raise -/

theorem pyOr_ok {x y : Except PyErr PyVal} (hx : ∃ a, x = .ok a)
    (hy : ∃ b, y = .ok b) : ∃ c, pyOr x y = .ok c := by
  obtain ⟨a, rfl⟩ := hx
  obtain ⟨b, rfl⟩ := hy
  refine ⟨if truthy a then a else b, ?_⟩
  unfold pyOr
  by_cases ht : truthy a = true <;> simp [ht]

theorem pyNestedGet_ok (m : List (String × PyVal)) (f : String)
    (hf : (match (dictLookup m f).getD .none with
           | PyVal.dict _ => true
           | v => !truthy v) = true) :
    ∃ w, pyNestedGet (.dict m) f "name" = .ok w := by
  unfold pyNestedGet
  simp only [pyGet]
  by_cases ht : truthy ((dictLookup m f).getD .none) = true
  · rw [if_pos ht]
    cases hu : (dictLookup m f).getD .none with
    | dict m2 => exact ⟨_, rfl⟩
    | none => rw [hu] at ht; cases ht
    | bool b =>
      rw [hu] at ht hf
      simp [truthy] at ht hf
      simp [hf] at ht
    | num n =>
      rw [hu] at ht hf
      simp [truthy] at ht hf
      simp [hf] at ht
    | str s =>
      rw [hu] at ht hf
      simp [truthy] at ht hf
      simp [hf] at ht
    | list l =>
      rw [hu] at ht hf
      simp [truthy] at ht hf
      simp [hf] at ht
  · rw [if_neg ht]
    exact ⟨_, rfl⟩

theorem extract_ok {p : PyVal} (h : itemOk p = true) :
    ∃ v, extract_player_name p = .ok v := by
  cases p with
  | dict m =>
    have hfields : ∀ f ∈ (["player", "data", "ws", "info"] : List String),
        (match (dictLookup m f).getD .none with
         | PyVal.dict _ => true
         | v => !truthy v) = true := by
      rw [itemOk, List.all_eq_true] at h
      exact h
    unfold extract_player_name
    apply pyOr_ok ⟨_, rfl⟩
    apply pyOr_ok (pyNestedGet_ok m "player" (hfields _ (by simp)))
    apply pyOr_ok ⟨_, rfl⟩
    apply pyOr_ok (pyNestedGet_ok m "data" (hfields _ (by simp)))
    apply pyOr_ok (pyNestedGet_ok m "ws" (hfields _ (by simp)))
    exact pyNestedGet_ok m "info" (hfields _ (by simp))
  | none => cases h
  | bool b => cases h
  | num n => cases h
  | str s => cases h
  | list l => cases h

theorem procRoster_char (tid : String) (tname : PyVal) (items : List PyVal)
    (h : items.all itemOk = true) :
    ∀ st : LeagueState, ∀ b : List PyVal,
    dget st.players_by_team tid = some b →
    ∃ st2 es,
      procRoster tid tname st items = .ok st2 ∧
      entriesOfRoster tid tname items = .ok es ∧
      st2.owner_by_name = ownerFold es st.owner_by_name ∧
      (∀ k, dget st2.players_by_team k =
        if tid = k then some (b ++ es.map (fun e => e.pname))
        else dget st.players_by_team k) := by
  induction items with
  | nil =>
    intro st b hb
    refine ⟨st, [], rfl, rfl, rfl, ?_⟩
    intro k
    by_cases hk : tid = k
    · subst hk
      simp [hb]
    · rw [if_neg hk]
  | cons p ps ih =>
    intro st b hb
    rw [List.all_cons, Bool.and_eq_true] at h
    obtain ⟨v, hv⟩ := extract_ok h.1
    by_cases ht : truthy v = true
    · -- the item yields an entry
      have hstep : procPlayer tid tname st p = .ok (LeagueState.mk
          (dset st.owner_by_name (normalize_name (pyStr v)) tname)
          (dset st.players_by_team tid
            (((dget st.players_by_team tid).getD []) ++ [v]))
          st.teams_index (st.total_names + 1)) := by
        unfold procPlayer
        rw [hv]
        simp [ht]
      have hb2 : dget (dset st.players_by_team tid
          (((dget st.players_by_team tid).getD []) ++ [v])) tid =
          some (b ++ [v]) := by
        rw [dget_dset_self, hb]
        rfl
      obtain ⟨st2, es, hproc, hent, hown, hpl⟩ :=
        ih h.2 (LeagueState.mk
          (dset st.owner_by_name (normalize_name (pyStr v)) tname)
          (dset st.players_by_team tid
            (((dget st.players_by_team tid).getD []) ++ [v]))
          st.teams_index (st.total_names + 1)) (b ++ [v]) hb2
      refine ⟨st2, RosterEntry.mk tid tname v :: es, ?_, ?_, ?_, ?_⟩
      · simp only [procRoster, hstep]
        exact hproc
      · simp only [entriesOfRoster, hv, hent, ht, if_true]
      · rw [hown]
        rfl
      · intro k
        rw [hpl k]
        by_cases hk : tid = k
        · rw [if_pos hk, if_pos hk]
          simp
        · rw [if_neg hk, if_neg hk]
          exact dget_dset_ne _ _ _ _ hk
    · -- falsy name: the item is skipped
      have hstep : procPlayer tid tname st p = .ok st := by
        unfold procPlayer
        rw [hv]
        simp [ht]
      obtain ⟨st2, es, hproc, hent, hown, hpl⟩ := ih h.2 st b hb
      refine ⟨st2, es, ?_, ?_, hown, hpl⟩
      · simp only [procRoster, hstep]
        exact hproc
      · simp only [entriesOfRoster, hv, hent, ht, if_false]
        simp [ht]

theorem teamNameOf_ok (m : List (String × PyVal)) :
    ∃ v, teamNameOf (.dict m) = .ok v := by
  unfold teamNameOf
  exact pyOr_ok ⟨_, rfl⟩ (pyOr_ok ⟨_, rfl⟩ ⟨_, rfl⟩)

theorem teamIdOf_ok (m : List (String × PyVal)) :
    ∃ s, teamIdOf (.dict m) = .ok s := by
  obtain ⟨v, hv⟩ := pyOr_ok (x := pyGet (.dict m) "id") ⟨_, rfl⟩
    (pyOr_ok (x := pyGet (.dict m) "teamId") ⟨_, rfl⟩ ⟨_, rfl⟩)
  refine ⟨String.mk (pyStripChars (pyStr v).toList), ?_⟩
  unfold teamIdOf
  rw [hv]

theorem rosterOfTeam_ok (m : List (String × PyVal)) :
    ∃ v, rosterOfTeam (.dict m) = .ok v := by
  unfold rosterOfTeam
  exact pyOr_ok ⟨_, rfl⟩ (pyOr_ok ⟨_, rfl⟩ (pyOr_ok ⟨_, rfl⟩ (pyOr_ok ⟨_, rfl⟩ ⟨_, rfl⟩)))

theorem procTeam_char (t : PyVal) (h : teamOk t = true) (st : LeagueState) :
    ∃ st2 es,
      procTeam st t = .ok st2 ∧
      entriesOfTeam t = .ok es ∧
      st2.owner_by_name = ownerFold es st.owner_by_name ∧
      teamEntryNames t = es.map (fun e => e.pname) ∧
      (∀ k, dget st2.players_by_team k =
        if teamIdPure t = k then some (es.map (fun e => e.pname))
        else dget st.players_by_team k) := by
  cases t with
  | dict mm =>
    obtain ⟨tname, hname⟩ := teamNameOf_ok mm
    obtain ⟨tid, hid⟩ := teamIdOf_ok mm
    obtain ⟨rv, hrv⟩ := rosterOfTeam_ok mm
    have h2 : ∃ items, pyIter rv = .ok items ∧ items.all itemOk = true := by
      simp only [teamOk, hrv] at h
      cases hit : pyIter rv with
      | error e => simp only [hit] at h; cases h
      | ok items =>
        simp only [hit] at h
        exact ⟨items, rfl, h⟩
    obtain ⟨items, hit, hall⟩ := h2
    obtain ⟨st2, es, hproc, hent, hown, hpl⟩ :=
      procRoster_char tid tname items hall
        (LeagueState.mk st.owner_by_name (dset st.players_by_team tid [])
          (st.teams_index ++ [(tid, tname)]) st.total_names) []
        (dget_dset_self _ _ _)
    have hteam : procTeam st (.dict mm) = .ok st2 := by
      simp only [procTeam, hname, hid, hrv, hit]
      exact hproc
    have hentT : entriesOfTeam (.dict mm) = .ok es := by
      simp only [entriesOfTeam, hname, hid, hrv, hit]
      exact hent
    have hidP : teamIdPure (.dict mm) = tid := by
      simp only [teamIdPure, hid]
    refine ⟨st2, es, hteam, hentT, hown, ?_, ?_⟩
    · simp only [teamEntryNames, hentT]
    · intro k
      rw [hpl k, hidP]
      by_cases hk : tid = k
      · rw [if_pos hk, if_pos hk]
        simp
      · rw [if_neg hk, if_neg hk]
        exact dget_dset_ne _ _ _ _ hk
  | none => simp [teamOk] at h
  | bool b => simp [teamOk] at h
  | num n => simp [teamOk] at h
  | str s => simp [teamOk] at h
  | list l => simp [teamOk] at h

theorem foldl_lastBucket (k : String) (ts : List PyVal)
    (a : Option (List PyVal)) :
    ts.foldl (fun acc t => if teamIdPure t = k then some (teamEntryNames t) else acc) a =
      (lastBucket ts k).orElse (fun _ => a) := by
  induction ts generalizing a with
  | nil => rfl
  | cons t ts ih =>
    simp only [List.foldl_cons, lastBucket]
    rw [ih, ih]
    by_cases hc : teamIdPure t = k
    · rw [if_pos hc, if_pos hc]
      cases lastBucket ts k <;> rfl
    · rw [if_neg hc, if_neg hc]
      cases lastBucket ts k <;> rfl

theorem procTeams_char (ts : List PyVal) (h : ts.all teamOk = true) :
    ∀ st : LeagueState,
    ∃ st2 es,
      procTeams st ts = .ok st2 ∧
      entriesOfTeams ts = .ok es ∧
      st2.owner_by_name = ownerFold es st.owner_by_name ∧
      (∀ k, dget st2.players_by_team k =
        (lastBucket ts k).orElse (fun _ => dget st.players_by_team k)) := by
  induction ts with
  | nil =>
    intro st
    exact ⟨st, [], rfl, rfl, rfl, fun k => rfl⟩
  | cons t ts ih =>
    intro st
    rw [List.all_cons, Bool.and_eq_true] at h
    obtain ⟨st1, es1, hp1, he1, ho1, hn1, hl1⟩ := procTeam_char t h.1 st
    obtain ⟨st2, es2, hp2, he2, ho2, hl2⟩ := ih h.2 st1
    refine ⟨st2, es1 ++ es2, ?_, ?_, ?_, ?_⟩
    · simp only [procTeams, hp1]
      exact hp2
    · simp only [entriesOfTeams, he1, he2]
    · rw [ho2, ho1]
      exact (List.foldl_append _ _ _ _).symm
    · intro k
      rw [hl2 k]
      have hlb : lastBucket (t :: ts) k =
          (lastBucket ts k).orElse
            (fun _ => if teamIdPure t = k then some (teamEntryNames t) else none) := by
        simp only [lastBucket, List.foldl_cons]
        rw [foldl_lastBucket]
        rfl
      rw [hlb]
      simp only [hl1, hn1]
      rcases lastBucket ts k with _ | b
      · by_cases hc : teamIdPure t = k
        · simp [Option.orElse, hc]
        · simp [Option.orElse, hc]
      · simp [Option.orElse]

theorem fetch_char (data : PyVal) (h : payloadOk data = true) :
    ∃ st es,
      fetch_live_league data = .ok st ∧
      extractEntries data = .ok es ∧
      st.owner_by_name = ownerFold es [] ∧
      (∀ k, dget st.players_by_team k =
        (lastBucket (topTeams data) k).orElse (fun _ => none)) := by
  cases hlg : pyGetD data "league" data with
  | error e => simp only [payloadOk, hlg] at h; cases h
  | ok league =>
    cases htv : pyGetD league "teams" (.list []) with
    | error e => simp only [payloadOk, hlg, htv] at h; cases h
    | ok teamsV =>
      cases hti : pyIter teamsV with
      | error e => simp only [payloadOk, hlg, htv, hti] at h; cases h
      | ok teams =>
        simp only [payloadOk, hlg, htv, hti] at h
        obtain ⟨st, es, hp, he, ho, hl⟩ := procTeams_char teams h initState
        have htt : topTeams data = teams := by
          simp only [topTeams, hlg, htv, hti]
        refine ⟨st, es, ?_, ?_, ho, ?_⟩
        · simp only [fetch_live_league, hlg, htv, hti]
          exact hp
        · simp only [extractEntries, hlg, htv, hti]
          exact he
        · intro k
          rw [hl k, htt]
          rfl

theorem ownerFold_last (es : List RosterEntry) (o : List (String × PyVal))
    (key : String) :
    dget (ownerFold es o) key =
      match es.reverse.find? (fun e => normalize_name (pyStr e.pname) == key) with
      | some e => some e.tname
      | none => dget o key := by
  induction es generalizing o with
  | nil => rfl
  | cons e es ih =>
    show dget (ownerFold es (dset o (normalize_name (pyStr e.pname)) e.tname)) key = _
    rw [ih, List.reverse_cons, List.find?_append]
    rcases hf : es.reverse.find? (fun e => normalize_name (pyStr e.pname) == key)
      with _ | e2
    · rw [hf]
      simp only [Option.or]
      by_cases hp : (normalize_name (pyStr e.pname) == key) = true
      · have hfind : [e].find? (fun e => normalize_name (pyStr e.pname) == key) = some e := by
          simp [List.find?, hp]
        rw [hfind]
        have hkey : normalize_name (pyStr e.pname) = key := by simpa using hp
        rw [← hkey, dget_dset_self]
      · have hfind : [e].find? (fun e => normalize_name (pyStr e.pname) == key) = none := by
          simp [List.find?, hp]
        rw [hfind]
        exact dget_dset_ne _ _ _ _ (by simpa using hp)
    · rw [hf]
      rfl

/-- Claim C2 (amended): extraction returns a list of entries without
raising for every payload in which each node the walk accesses as a
mapping is a mapping (payload and league nodes; each team node; each
roster item, whose player/data/ws/info fields are mappings or
absent/falsy) and the teams and roster values are iterable.  As stated
("for every payload that is a tree of mappings and sequences") the
claim is false, see the counterexample. -/
theorem claim_C2_no_raise (data : PyVal) (h : payloadOk data = true) :
    (∃ st, fetch_live_league data = .ok st) ∧
    (∃ es, extractEntries data = .ok es) := by
  obtain ⟨st, es, hp, he, _, _⟩ := fetch_char data h
  exact ⟨⟨st, hp⟩, ⟨es, he⟩⟩

/-- Counterexample to claim C2 as stated: the payload [] is a tree (a
JSON array) that parses fine, yet extraction raises AttributeError,
because data.get("league", data) is attribute access on a list. -/
theorem claim_C2_counterexample :
    fetch_live_league (.list []) = .error .attributeError := rfl

/-- Witness for claim C2 at a concrete well-shaped payload. -/
theorem claim_C2_no_raise_witness :
    payloadOk (mkLeagueNested [("t1", "Bob", ["John Smith"])]) = true ∧
    ((∃ st, fetch_live_league (mkLeagueNested [("t1", "Bob", ["John Smith"])]) = .ok st) ∧
     (∃ es, extractEntries (mkLeagueNested [("t1", "Bob", ["John Smith"])]) = .ok es)) :=
  ⟨by decide, claim_C2_no_raise _ (by decide)⟩

/-- Claim C3 (amended): for a well-shaped payload, rosterOf(teamId)
returns exactly the player names extracted for the last team node whose
(stripped, stringified) id equals the stripped teamId - each team node
resets its bucket at line 65, so when several teams share an id
(including the synthetic empty-string id of all absent-id teams) only
the last such team's names are kept - and an id no team carries yields
the empty list, not an error. -/
theorem claim_C3_rosterOf (data : PyVal) (h : payloadOk data = true) :
    ∃ st, fetch_live_league data = .ok st ∧
      ∀ tid : String,
        rosterOf st tid =
          (lastBucket (topTeams data) (String.mk (pyStripChars tid.toList))).getD [] := by
  obtain ⟨st, es, hp, he, ho, hl⟩ := fetch_char data h
  refine ⟨st, hp, ?_⟩
  intro tid
  unfold rosterOf
  rw [hl _]
  rcases lastBucket (topTeams data) (String.mk (pyStripChars tid.toList)) with _ | b <;> rfl

/-- Counterexample to claim C3 as stated: two teams both lacking an id
land in the empty-string bucket, but the bucket does not accumulate:
extraction yields entries for P1 and P2 with teamId "", while
rosterOf("") returns only ["P2"] (the last team's roster), not
["P1", "P2"]. -/
theorem claim_C3_counterexample :
    (extractEntries (.dict [("teams", .list
        [.dict [("name", .str "A"), ("players", .list [.dict [("name", .str "P1")]])],
         .dict [("name", .str "B"), ("players", .list [.dict [("name", .str "P2")]])]])])).map
      (fun es => es.map fun e => (e.tid, pyStr e.pname)) =
      .ok [("", "P1"), ("", "P2")] ∧
    (fetch_live_league (.dict [("teams", .list
        [.dict [("name", .str "A"), ("players", .list [.dict [("name", .str "P1")]])],
         .dict [("name", .str "B"), ("players", .list [.dict [("name", .str "P2")]])]])])).map
      (fun st => (rosterOf st "").map pyStr) = .ok ["P2"] ∧
    (["P2"] : List String) ≠ ["P1", "P2"] :=
  ⟨rfl, rfl, by decide⟩

/-- Witness for claim C3 at a concrete well-shaped payload. -/
theorem claim_C3_rosterOf_witness :
    payloadOk (mkLeagueFlat [("t1", "Bob", ["John Smith"])]) = true ∧
    (∃ st, fetch_live_league (mkLeagueFlat [("t1", "Bob", ["John Smith"])]) = .ok st ∧
      ∀ tid : String,
        rosterOf st tid =
          (lastBucket (topTeams (mkLeagueFlat [("t1", "Bob", ["John Smith"])]))
            (String.mk (pyStripChars tid.toList))).getD []) :=
  ⟨by decide, claim_C3_rosterOf _ (by decide)⟩

/-- Claim C10: owner_by_name is written once per extracted entry in
extraction order, so a normalized name owned by several teams resolves
to the team name of the last entry (last-write-wins), and the Owner
cell is always the single value that lookup produces (with sentinel "-"
when no entry matches). -/
theorem claim_C10_last_write (data : PyVal) (h : payloadOk data = true) :
    ∃ st es,
      fetch_live_league data = .ok st ∧
      extractEntries data = .ok es ∧
      (∀ key : String,
        dget st.owner_by_name key =
          (es.reverse.find? (fun e => normalize_name (pyStr e.pname) == key)).map
            (fun e => e.tname)) ∧
      (∀ key : String,
        ownerOf st key =
          ((es.reverse.find? (fun e => normalize_name (pyStr e.pname) == key)).map
            (fun e => e.tname)).getD (.str "-")) := by
  obtain ⟨st, es, hp, he, ho, _⟩ := fetch_char data h
  have hmain : ∀ key : String,
      dget st.owner_by_name key =
        (es.reverse.find? (fun e => normalize_name (pyStr e.pname) == key)).map
          (fun e => e.tname) := by
    intro key
    rw [ho, ownerFold_last]
    rcases hf : es.reverse.find? (fun e => normalize_name (pyStr e.pname) == key)
      with _ | e
    · rw [hf]
      rfl
    · rw [hf]
      rfl
  refine ⟨st, es, hp, he, hmain, ?_⟩
  intro key
  unfold ownerOf
  rw [hmain key]

/-- Witness for claim C10: the same player name appears on two teams;
ownership resolves to the second (last-written) team. -/
theorem claim_C10_last_write_witness :
    payloadOk (mkPayload [mkTeam "t1" "A" [itemFlat "John Smith"],
                          mkTeam "t2" "B" [itemFlat "John Smith"]]) = true ∧
    (∃ st es,
      fetch_live_league (mkPayload [mkTeam "t1" "A" [itemFlat "John Smith"],
                                    mkTeam "t2" "B" [itemFlat "John Smith"]]) = .ok st ∧
      extractEntries (mkPayload [mkTeam "t1" "A" [itemFlat "John Smith"],
                                 mkTeam "t2" "B" [itemFlat "John Smith"]]) = .ok es ∧
      (∀ key : String,
        dget st.owner_by_name key =
          (es.reverse.find? (fun e => normalize_name (pyStr e.pname) == key)).map
            (fun e => e.tname)) ∧
      (∀ key : String,
        ownerOf st key =
          ((es.reverse.find? (fun e => normalize_name (pyStr e.pname) == key)).map
            (fun e => e.tname)).getD (.str "-"))) :=
  ⟨by decide, claim_C10_last_write _ (by decide)⟩

/-! ### Claim C1: the descending sort and its tie order -/

/-- Claim C1 (amended): df_top is the score rows sorted descending by
composite score and cut to 25, and the tie order is deterministic given
a fixed input order - but reversed: two rows with equal scores appear
with the later pool row first, because pandas produces the descending
order by reversing an ascending argsort. -/
theorem claim_C1_sort_ties_reversed (pool : List Candidate) (w : Weights) :
    List.Perm (sortValuesDesc (scoreList pool w).enum) (scoreList pool w).enum ∧
    df_top pool w = (sortValuesDesc (scoreList pool w).enum).take 25 ∧
    List.Pairwise (fun a b => b.2 ≤ a.2 ∧ (a.2 = b.2 → b.1 < a.1))
      (sortValuesDesc (scoreList pool w).enum) ∧
    List.Pairwise (fun a b => b.2 ≤ a.2 ∧ (a.2 = b.2 → b.1 < a.1))
      (df_top pool w) := by
  have hperm : List.Perm (sortValuesDesc (scoreList pool w).enum)
      (scoreList pool w).enum :=
    (List.reverse_perm _).trans (List.perm_insertionSort rowLe _)
  have hsorted : List.Pairwise (fun a b => rowLe b a)
      (sortValuesDesc (scoreList pool w).enum) := by
    unfold sortValuesDesc
    rw [List.pairwise_reverse]
    exact List.sorted_insertionSort rowLe _
  have hnd : List.Pairwise (fun a b : ℕ × ℚ => a.1 ≠ b.1)
      (sortValuesDesc (scoreList pool w).enum) := by
    have h1 : ((scoreList pool w).enum.map Prod.fst).Nodup :=
      List.nodup_enum_map_fst _
    have h2 : ((sortValuesDesc (scoreList pool w).enum).map Prod.fst).Nodup :=
      ((hperm.map Prod.fst).nodup_iff).mpr h1
    exact List.pairwise_map.mp h2
  have hmain : List.Pairwise (fun a b => b.2 ≤ a.2 ∧ (a.2 = b.2 → b.1 < a.1))
      (sortValuesDesc (scoreList pool w).enum) := by
    refine (hsorted.and hnd).imp ?_
    intro a b hab
    obtain ⟨hr, hne⟩ := hab
    constructor
    · rcases hr with h | ⟨he, _⟩
      · exact le_of_lt h
      · exact le_of_eq he
    · intro heq
      rcases hr with h | ⟨he, hn⟩
      · exact absurd (heq ▸ h) (lt_irrefl _)
      · exact lt_of_le_of_ne hn (fun hh => hne (hh ▸ rfl))
  exact ⟨hperm, rfl, hmain, hmain.sublist (List.take_sublist _ _)⟩

/-- Counterexample to claim C1 as stated: two candidates with identical
metrics tie on composite score, and df_top lists pool row 1 before pool
row 0 - reversed pool order, not original pool order. -/
theorem claim_C1_counterexample :
    df_top [Candidate.mk (some 1) (some 1) none (some 1) false,
            Candidate.mk (some 1) (some 1) none (some 1) false]
        (Weights.mk 1 1 1 1) = [(1, 0), (0, 0)] ∧
    df_top [Candidate.mk (some 1) (some 1) none (some 1) false,
            Candidate.mk (some 1) (some 1) none (some 1) false]
        (Weights.mk 1 1 1 1) ≠ [(0, 0), (1, 0)] := by
  have hs : scoreList [Candidate.mk (some 1) (some 1) none (some 1) false,
      Candidate.mk (some 1) (some 1) none (some 1) false]
      (Weights.mk 1 1 1 1) = [0, 0] := by
    norm_num [scoreList, List.range_succ, minmax, listMax, listMin, nthQ,
      coerceNum, List.getD]
  constructor
  · unfold df_top
    rw [hs]
    decide
  · unfold df_top
    rw [hs]
    decide

/-- Witness instantiating claim C1 (amended) at a concrete pool. -/
theorem claim_C1_sort_ties_reversed_witness :
    List.Perm (sortValuesDesc (scoreList
        [Candidate.mk (some 1) (some 1) none (some 1) false] (Weights.mk 1 1 1 1)).enum)
      (scoreList [Candidate.mk (some 1) (some 1) none (some 1) false]
        (Weights.mk 1 1 1 1)).enum ∧
    df_top [Candidate.mk (some 1) (some 1) none (some 1) false] (Weights.mk 1 1 1 1) =
      (sortValuesDesc (scoreList
        [Candidate.mk (some 1) (some 1) none (some 1) false] (Weights.mk 1 1 1 1)).enum).take 25 ∧
    List.Pairwise (fun a b => b.2 ≤ a.2 ∧ (a.2 = b.2 → b.1 < a.1))
      (sortValuesDesc (scoreList
        [Candidate.mk (some 1) (some 1) none (some 1) false] (Weights.mk 1 1 1 1)).enum) ∧
    List.Pairwise (fun a b => b.2 ≤ a.2 ∧ (a.2 = b.2 → b.1 < a.1))
      (df_top [Candidate.mk (some 1) (some 1) none (some 1) false] (Weights.mk 1 1 1 1)) :=
  claim_C1_sort_ties_reversed
    [Candidate.mk (some 1) (some 1) none (some 1) false] (Weights.mk 1 1 1 1)

end DraftWaiver
